import Mathlib

/-!
Verification of the chroma-key compositor of `chroma_key_core.py` together
with the background stepping, loading and adjustment logic of
`chroma_key_gui.py`, over a shallow embedding.

Conventions of the embedding:
* an 8-bit BGR pixel is a triple of naturals (bounded by 255 where a theorem
  needs it), a raster is a list of rows of pixels, mirroring a NumPy
  `(h, w, 3)` `uint8` array;
* the `float32` arithmetic of the source is embedded as exact rational
  arithmetic;
* NumPy `uint8` scalar arithmetic (`target_hsv[0] - tolerance`, `+ tolerance`)
  wraps modulo 256, as NumPy does for `np.uint8` scalars combined with a
  Python int that fits in `uint8`; the embedding fixes `tolerance ≤ 255`,
  which covers the GUI's whole slider range 0..100;
* `cv2.VideoCapture` used as a background source is embedded as an explicit
  state (a decoded frame list plus a read position) threaded through
  `perform_chroma_key`, so the mutation performed by `.read()`/`.set()`
  becomes visible in the returned state.
-/

namespace ChromaKey

/-- Clamp a rational to an interval: `np.clip(x, lo, hi)`. -/
def clipQ (x lo hi : ℚ) : ℚ := min hi (max lo x)

/-- Round half to even on rationals: `cvRound`, used by `cv2.convertScaleAbs`
when saturating a float result to `uint8`. -/
def rndHalfEven (q : ℚ) : ℤ :=
  if Int.fract q < 1/2 then ⌊q⌋
  else if 1/2 < Int.fract q then ⌊q⌋ + 1
  else if 2 ∣ ⌊q⌋ then ⌊q⌋ else ⌊q⌋ + 1

/-- An 8-bit BGR pixel (channel order as in OpenCV). -/
structure PixB where
  b : ℕ
  g : ℕ
  r : ℕ
deriving DecidableEq, Repr

/-- An 8-bit HSV pixel as produced by `cv2.COLOR_BGR2HSV` (h in 0..179). -/
structure HSV where
  h : ℕ
  s : ℕ
  v : ℕ
deriving DecidableEq, Repr

/-- The GUI stores `self.bg_color` as an (R, G, B) tuple. -/
structure RGBc where
  r : ℕ
  g : ℕ
  b : ℕ
deriving DecidableEq, Repr

abbrev RasterB := List (List PixB)
abbrev AlphaMap := List (List ℚ)

/-- Pixel access `arr[i][j]` with the all-zero pixel as out-of-range default. -/
def px (a : RasterB) (i j : ℕ) : PixB := (a.getD i []).getD j ⟨0, 0, 0⟩

/-- Scalar access into a single-channel rational map, default 0. -/
def aij (a : AlphaMap) (i j : ℕ) : ℚ := (a.getD i []).getD j 0

def widthOf (a : RasterB) : ℕ := (a.getD 0 []).length

/-- The raster is a rectangular `h × w` grid (the shape invariant of a NumPy array). -/
def Rect (a : RasterB) (hh ww : ℕ) : Prop :=
  a.length = hh ∧ ∀ row ∈ a, row.length = ww

/-- Rectangular `h × w` with all channels in the `uint8` range. -/
def ValidB (a : RasterB) (hh ww : ℕ) : Prop :=
  Rect a hh ww ∧ ∀ row ∈ a, ∀ p ∈ row, p.b ≤ 255 ∧ p.g ≤ 255 ∧ p.r ≤ 255

instance (a : RasterB) (hh ww : ℕ) : Decidable (Rect a hh ww) := by
  unfold Rect; infer_instance

instance (a : RasterB) (hh ww : ℕ) : Decidable (ValidB a hh ww) := by
  unfold ValidB Rect; infer_instance

/-- `cv2.cvtColor(..., cv2.COLOR_BGR2HSV)` on one 8-bit pixel.
OpenCV computes V = max(R,G,B), S = round(255·(V−min)/V) (0 when V = 0), and
H = the rounded half of the 60°-sector hue, plus 180 if negative, giving
0..179.  OpenCV's fixed-point evaluation `(x·tab[d] + (1 << 11)) >> 12` is a
round-half-up of the same quotient; the embedding uses the exact rounded
rational, written with integer floor division (`⌊q + 1/2⌋ = (2·num + den) / (2·den)`). -/
def bgr2hsv (p : PixB) : HSV :=
  let v := max p.r (max p.g p.b)
  let mn := min p.r (min p.g p.b)
  let diff := v - mn
  let s := if v = 0 then 0 else (510 * diff + v) / (2 * v)
  let hRaw : ℤ :=
    if diff = 0 then 0
    else if v = p.r then (60 * ((p.g : ℤ) - p.b) + diff) / (2 * diff)
    else if v = p.g then (60 * ((p.b : ℤ) - p.r + 2 * diff) + diff) / (2 * diff)
    else (60 * ((p.r : ℤ) - p.g + 4 * diff) + diff) / (2 * diff)
  ⟨(if hRaw < 0 then hRaw + 180 else hRaw).toNat, s, v⟩

/-- NumPy `uint8` scalar addition (second operand reduced mod 256). -/
def u8add (a t : ℕ) : ℕ := (a + t) % 256

/-- NumPy `uint8` scalar subtraction: wraps modulo 256 instead of going
negative (second operand reduced mod 256). -/
def u8sub (a t : ℕ) : ℕ := (a + (256 - t % 256)) % 256

/-- `max(0, target_hsv[0] - tolerance)` of the source.  Note the subtraction
wraps in `uint8`, so the `max 0` clamp is dead code. -/
def lowerHue (kh tol : ℕ) : ℕ := max 0 (u8sub kh tol)

/-- `min(180, target_hsv[0] + tolerance)` of the source (`uint8` addition). -/
def upperHue (kh tol : ℕ) : ℕ := min 180 (u8add kh tol)

/-- `cv2.inRange(hsv, [lowerHue, 50, 50], [upperHue, 255, 255])` at one
pixel: 255 inside the (inclusive) box, 0 outside. -/
def maskVal (key : HSV) (tol : ℕ) (q : HSV) : ℕ :=
  if lowerHue key.h tol ≤ q.h ∧ q.h ≤ upperHue key.h tol ∧
     50 ≤ q.s ∧ q.s ≤ 255 ∧ 50 ≤ q.v ∧ q.v ≤ 255 then 255 else 0

/-- Normalized binomial coefficients: strictly positive weights summing to 1. -/
def binomKernel (n : ℕ) : List ℚ :=
  (List.range n).map fun t => ((n - 1).choose t : ℚ) / 2 ^ (n - 1)

/-- The 1-D kernel of `cv2.getGaussianKernel(n, 0)`.  For ksize 1, 3, 5, 7
OpenCV uses exactly these fixed small kernels.  For larger sizes OpenCV
computes exp-based weights; those are strictly positive and sum to 1, which
is all any theorem below uses of them, and the embedding stands in the
(equally positive, normalized) binomial kernel of the same length. -/
def gaussKernel (n : ℕ) : List ℚ :=
  if n = 1 then [1]
  else if n = 3 then [1/4, 1/2, 1/4]
  else if n = 5 then [1/16, 4/16, 6/16, 4/16, 1/16]
  else if n = 7 then [1/32, 7/64, 7/32, 9/32, 7/32, 7/64, 1/32]
  else binomKernel n

/-- OpenCV `BORDER_REFLECT_101` index mapping into `0..n-1`: the triangular
wave of period `2(n−1)`; for `n = 1` every index maps to 0. -/
def reflect101 (n : ℕ) (i : ℤ) : ℕ :=
  if n ≤ 1 then 0
  else
    let p := (i % (2 * ((n : ℤ) - 1))).toNat
    if p < n then p else 2 * (n - 1) - p

/-- `cv2.GaussianBlur(A, (n, n), 0)`: separable convolution with the 1-D
kernel `k` along both axes and `BORDER_REFLECT_101` border handling, written
as the equivalent product-kernel double sum (anchor at the kernel center). -/
def gaussBlur2D (k : List ℚ) (A : AlphaMap) : AlphaMap :=
  let hh := A.length
  let ww := (A.getD 0 []).length
  let anch := k.length / 2
  (List.range hh).map fun (i : ℕ) => (List.range ww).map fun (j : ℕ) =>
    ∑ u ∈ Finset.range k.length, ∑ v ∈ Finset.range k.length,
      k.getD u 0 * k.getD v 0 *
        aij A (reflect101 hh ((i : ℤ) + u - anch)) (reflect101 ww ((j : ℤ) + v - anch))

/-- `blur_size = max(1, softness * 4 + 1)` of the source. -/
def blurSize (softness : ℕ) : ℕ := max 1 (softness * 4 + 1)

/-- Lines 55-60 of `chroma_key_core.py`: the `mask` local — HSV conversion of
frame and key color and the elementwise `cv2.inRange`. -/
def maskOf (frame : RasterB) (bg_color_bgr : PixB) (tolerance : ℕ) : List (List ℕ) :=
  frame.map fun row => row.map fun p =>
    maskVal (bgr2hsv bg_color_bgr) tolerance (bgr2hsv p)

/-- Line 62: the `alpha` local — `mask.astype(np.float32) / 255.0`. -/
def alpha0Of (frame : RasterB) (bg_color_bgr : PixB) (tolerance : ℕ) : AlphaMap :=
  (maskOf frame bg_color_bgr tolerance).map fun row =>
    row.map fun (m : ℕ) => (m : ℚ) / 255

/-- Lines 55-64 of `chroma_key_core.py`: mask, float alpha, Gaussian blur. -/
def alphaMapOf (frame : RasterB) (bg_color_bgr : PixB) (tolerance softness : ℕ) : AlphaMap :=
  gaussBlur2D (gaussKernel (blurSize softness)) (alpha0Of frame bg_color_bgr tolerance)

/-- `np.clip(x, 0, 255).astype(np.uint8)` at one channel: clamp to the `uint8`
range, then the cast truncates the (now nonnegative) float. -/
def toByte (q : ℚ) : ℕ := (⌊clipQ q 0 255⌋).toNat

/-- Lines 55-74 of `chroma_key_core.py` given the already-resized background:
alpha map, per-pixel blend `alpha·bg + (1−alpha)·fg`, flat green-channel
spill subtraction when `color_spill > 0`, final clip and `uint8` cast.
All NumPy array ops are elementwise, so the embedding builds the output
raster pixel by pixel. -/
def compositeCore (frame bgRes : RasterB) (bg_color_bgr : PixB)
    (tolerance softness color_spill : ℕ) : RasterB :=
  let alpha := alphaMapOf frame bg_color_bgr tolerance softness
  (List.range frame.length).map fun i =>
    (List.range (frame.getD 0 []).length).map fun j =>
      let a := aij alpha i j
      let pb := px bgRes i j
      let pf := px frame i j
      let cb := a * pb.b + (1 - a) * pf.b
      let cg := a * pb.g + (1 - a) * pf.g
      let cr := a * pb.r + (1 - a) * pf.r
      let cg2 := if 0 < color_spill then clipQ (cg - color_spill) 0 255 else cg
      ⟨toByte cb, toByte cg2, toByte cr⟩

/-- `cv2.resize(src, (w, h))`.  When the source already has the target size
(the only case the claims exercise, and the case produced by the GUI, which
feeds equal-sized frames), `cv2.resize` with its default bilinear sampling is
the identity, because source and destination pixel centers coincide.  The
non-identity branch stands in a nearest-style resample. -/
def cvResize (src : RasterB) (w h : ℕ) : RasterB :=
  if src.length = h ∧ widthOf src = w then src
  else
    (List.range h).map fun i => (List.range w).map fun j =>
      px src (i * src.length / max 1 h) (j * widthOf src / max 1 w)

/-- A `cv2.VideoCapture`: the decodable frames and the current read position. -/
structure CapState where
  frames : List RasterB
  pos : ℕ
deriving DecidableEq

/-- `cap.read()`: returns the frame at the current position and advances it,
or fails (leaving the position where it was) when the stream is exhausted. -/
def capRead (c : CapState) : Option RasterB × CapState :=
  match c.frames.get? c.pos with
  | some f => (some f, ⟨c.frames, c.pos + 1⟩)
  | none => (none, c)

/-- The duck-typed `bg_source` argument of `perform_chroma_key`: either a
`cv2.VideoCapture` (used with `bg_is_video=True`) or a NumPy image array
(used with `bg_is_video=False`).  The tag plays the role of the flag; every
call site of the source passes the flag matching the value it passes. -/
inductive BgSource where
  | vid (c : CapState)
  | img (a : RasterB)
deriving DecidableEq

/-- `perform_chroma_key` of `chroma_key_core.py` (lines 18-74).  The background
source is threaded in and out so that the mutation of a `cv2.VideoCapture`
performed by the video branch (`read`, rewind via `set(CAP_PROP_POS_FRAMES, 0)`,
`read` again, and on double failure return the foreground unchanged) is
explicit; the image and `None` branches never change it. -/
def perform_chroma_key (frame : RasterB) (bg_source : Option BgSource)
    (bg_color_bgr : PixB) (tolerance softness color_spill : ℕ) :
    RasterB × Option BgSource :=
  match bg_source with
  | none => (frame, none)
  | some (.img a) =>
      (compositeCore frame (cvResize a (widthOf frame) frame.length)
        bg_color_bgr tolerance softness color_spill, some (.img a))
  | some (.vid c) =>
      match capRead c with
      | (some f, c1) =>
          (compositeCore frame (cvResize f (widthOf frame) frame.length)
            bg_color_bgr tolerance softness color_spill, some (.vid c1))
      | (none, c1) =>
          match capRead ⟨c1.frames, 0⟩ with
          | (some f, c2) =>
              (compositeCore frame (cvResize f (widthOf frame) frame.length)
                bg_color_bgr tolerance softness color_spill, some (.vid c2))
          | (none, c2) => (frame, some (.vid c2))

/-! ## The GUI layer (`chroma_key_gui.py`) -/

/-- `cv2.convertScaleAbs(src, alpha, beta)` at one channel:
`saturate_cast<uchar>(|alpha·x + beta|)`, i.e. absolute value, round half to
even, clamp to 0..255 (the rounded absolute value is already nonnegative). -/
def cvtScaleAbsChan (al be : ℚ) (x : ℕ) : ℕ :=
  (min 255 (rndHalfEven |al * x + be|)).toNat

def cvtScaleAbsPix (al be : ℚ) (p : PixB) : PixB :=
  ⟨cvtScaleAbsChan al be p.b, cvtScaleAbsChan al be p.g, cvtScaleAbsChan al be p.r⟩

/-- `cv2.convertScaleAbs` on a whole raster (applied uniformly per pixel). -/
def cvtScaleAbsRaster (al be : ℚ) (a : RasterB) : RasterB :=
  a.map fun row => row.map (cvtScaleAbsPix al be)

/-- The fields of `ChromaKeyApp` that `apply_chroma_key` and the background
loader touch. -/
structure AppState where
  bg_color : RGBc
  tolerance : ℕ
  softness : ℕ
  color_spill : ℕ
  fg_brightness : ℚ
  fg_contrast : ℚ
  bg_brightness : ℚ
  bg_contrast : ℚ
  bg_is_video : Bool
  bg_video_is_reversed : Bool
  bg_total_frames : ℤ
  bg_index : ℤ
  bg_frames : List RasterB
  bg_image : Option RasterB
deriving DecidableEq

/-- The defaults set in `ChromaKeyApp.__init__`. -/
def initialApp : AppState :=
  { bg_color := ⟨0, 255, 0⟩
    tolerance := 25
    softness := 0
    color_spill := 0
    fg_brightness := 0
    fg_contrast := 1
    bg_brightness := 0
    bg_contrast := 1
    bg_is_video := false
    bg_video_is_reversed := false
    bg_total_frames := 0
    bg_index := 0
    bg_frames := []
    bg_image := none }

/-- Lines 436-443 of `chroma_key_gui.py`: decrement and wrap below 0 to
`total−1` when reversed, else increment and wrap at/above `total` to 0. -/
def stepIdx (reversed : Bool) (idx total : ℤ) : ℤ :=
  if reversed then
    if idx - 1 < 0 then total - 1 else idx - 1
  else
    if total ≤ idx + 1 then 0 else idx + 1

/-- Lines 436-445: advance `bg_index` (before reading), then read
`bg_frames[bg_index]`. -/
def nextBgFrame (s : AppState) : RasterB × AppState :=
  let idx := stepIdx s.bg_video_is_reversed s.bg_index s.bg_total_frames
  (s.bg_frames.getD idx.toNat [], { s with bg_index := idx })

/-- `ChromaKeyApp.apply_chroma_key` (lines 433-465): adjust the foreground
with the foreground brightness/contrast, pick the background (the next
stepped video frame, or the static image, both adjusted with the background
brightness/contrast) and hand both to `perform_chroma_key` with
`bg_is_video_flag=False`; with no background, return the adjusted foreground.
The key color tuple is reordered from the stored (R, G, B) to BGR. -/
def applyChromaKey (s : AppState) (frame : RasterB) : RasterB × AppState :=
  let adjusted_fg := cvtScaleAbsRaster s.fg_contrast s.fg_brightness frame
  if s.bg_is_video = true ∧ s.bg_frames ≠ [] then
    let st := nextBgFrame s
    let adjusted_bg := cvtScaleAbsRaster s.bg_contrast s.bg_brightness st.1
    ((perform_chroma_key adjusted_fg (some (.img adjusted_bg))
        ⟨s.bg_color.b, s.bg_color.g, s.bg_color.r⟩
        s.tolerance s.softness s.color_spill).1, st.2)
  else
    match s.bg_image with
    | some im =>
        let adjusted_bg := cvtScaleAbsRaster s.bg_contrast s.bg_brightness im
        ((perform_chroma_key adjusted_fg (some (.img adjusted_bg))
            ⟨s.bg_color.b, s.bg_color.g, s.bg_color.r⟩
            s.tolerance s.softness s.color_spill).1, s)
    | none => (adjusted_fg, s)

/-- `ChromaKeyApp._load_background_video_worker` (lines 343-367), parametrized
by the list of frames the `cv2.VideoCapture` decoded: with fewer than one
frame it reports "Background video has no valid frames." and installs
nothing; otherwise it installs the frame list, its length, cursor 0 and the
video flag. -/
def loadBackgroundVideoWorker (decoded : List RasterB) (s : AppState) :
    Except String AppState :=
  if decoded.length < 1 then
    .error "Background video has no valid frames."
  else
    .ok { s with
          bg_frames := decoded
          bg_total_frames := (decoded.length : ℤ)
          bg_index := 0
          bg_is_video := true }

/-! ## Definitions taken from the specification's wording (for comparison
against the embedded source) -/

/-- The per-pixel blend of §4.2 step 5 / claim C1:
`output = alpha × background + (1 − alpha) × adjustedForeground`, computed in
floating point, then clamped to the 8-bit channel range and converted. -/
def blendPix (a : ℚ) (pb pf : PixB) : PixB :=
  ⟨toByte (a * pb.b + (1 - a) * pf.b),
   toByte (a * pb.g + (1 - a) * pf.g),
   toByte (a * pb.r + (1 - a) * pf.r)⟩

/-- The adjustment formula of §4.2 step 1 / claim C4, as the spec words it:
`clamp(originalChannel × contrastMultiplier + brightnessOffset, 0, 255)`
(no absolute value; rounding to the nearest representable as in the code). -/
def specAdjustChan (al be : ℚ) (x : ℕ) : ℕ :=
  (min 255 (max 0 (rndHalfEven (al * x + be)))).toNat

def specAdjustPix (al be : ℚ) (p : PixB) : PixB :=
  ⟨specAdjustChan al be p.b, specAdjustChan al be p.g, specAdjustChan al be p.r⟩

/-- The mask predicate of §4.2 step 3 / claim C3, as the spec words it: the
pixel's hue lies in `[keyHue − tolerance, keyHue + tolerance]` with the lower
bound clamped at 0 and the upper bound at the hue maximum (179, no
wraparound), and saturation and value both exceed a fixed low threshold. -/
def specMaskPred (key : HSV) (tol : ℕ) (q : HSV) : Prop :=
  max 0 ((key.h : ℤ) - tol) ≤ (q.h : ℤ) ∧ (q.h : ℤ) ≤ min 179 ((key.h : ℤ) + tol) ∧
    49 < q.s ∧ 49 < q.v

instance (key : HSV) (tol : ℕ) (q : HSV) : Decidable (specMaskPred key tol q) := by
  unfold specMaskPred; infer_instance

/-! ## Definitions used to state the feathering claim -/

/-- An alpha map whose entries are all 0 or 1 (as produced by `inRange`/255). -/
def BinaryMap (A : AlphaMap) : Prop := ∀ i j, aij A i j = 0 ∨ aij A i j = 1

/-- The transition band: pixels with alpha strictly between 0 and 1. -/
def inBand (A : AlphaMap) (i j : ℕ) : Prop := 0 < aij A i j ∧ aij A i j < 1

/-- A 1 × 9 alpha map with a single hard step edge between columns 4 and 5. -/
def stepMask9 : AlphaMap := [[0, 0, 0, 0, 0, 1, 1, 1, 1]]

/-! ## Definitions used to state the stepping claim -/

/-- The cursor after `k` calls of the stepper, started (as the GUI starts it)
at `bg_index = 0`, with a fixed direction. -/
def runIdx (reversed : Bool) (total : ℤ) (k : ℕ) : ℤ :=
  (fun c => stepIdx reversed c total)^[k] 0

/-- The cursor after stepping once per entry of `ds` (the direction flag read
anew at each call, as `apply_chroma_key` reads the checkbox), started at 0. -/
def foldSteps (total : ℤ) (ds : List Bool) : ℤ :=
  ds.foldl (fun c d => stepIdx d c total) 0

/-! ## List access helpers -/

theorem getD_map_lt {α β : Type} (f : α → β) (l : List α) (i : ℕ) (h : i < l.length)
    (d : β) (d' : α) : (l.map f).getD i d = f (l.getD i d') := by
  rw [List.getD_eq_getElem _ _ (by simpa using h), List.getD_eq_getElem _ _ h,
    List.getElem_map]

theorem getD_range_map {β : Type} (f : ℕ → β) (n i : ℕ) (h : i < n) (d : β) :
    ((List.range n).map f).getD i d = f i := by
  rw [getD_map_lt f _ i (by simpa using h) d 0,
    List.getD_eq_getElem _ _ (by simpa using h), List.getElem_range]

theorem px_eq_getElem {A : RasterB} {i j : ℕ} (h1 : i < A.length)
    (h2 : j < (A[i]).length) : px A i j = A[i][j] := by
  unfold px
  rw [List.getD_eq_getElem _ _ h1, List.getD_eq_getElem _ _ h2]

/-- Two rectangular rasters of the same shape that agree pixelwise are equal. -/
theorem rect_ext {A B : RasterB} {hh ww : ℕ} (hA : Rect A hh ww) (hB : Rect B hh ww)
    (hp : ∀ i j, i < hh → j < ww → px A i j = px B i j) : A = B := by
  apply List.ext_getElem (by rw [hA.1, hB.1])
  intro i h1 h2
  apply List.ext_getElem
  · rw [hA.2 _ (List.getElem_mem h1), hB.2 _ (List.getElem_mem h2)]
  intro j hj1 hj2
  have hi : i < hh := by rw [← hA.1]; exact h1
  have hj : j < ww := by rw [← hA.2 _ (List.getElem_mem h1)]; exact hj1
  have := hp i j hi hj
  rwa [px_eq_getElem h1 hj1, px_eq_getElem h2 hj2] at this

/-- All channels of any pixel read from a `ValidB` raster are bytes
(out-of-range reads return the zero pixel). -/
theorem px_byte {A : RasterB} {hh ww : ℕ} (hA : ValidB A hh ww) (i j : ℕ) :
    (px A i j).b ≤ 255 ∧ (px A i j).g ≤ 255 ∧ (px A i j).r ≤ 255 := by
  unfold px
  by_cases h1 : i < A.length
  · have hrow : A.getD i [] ∈ A := by
      rw [List.getD_eq_getElem _ _ h1]; exact List.getElem_mem h1
    by_cases h2 : j < (A.getD i []).length
    · have hp : (A.getD i []).getD j ⟨0,0,0⟩ ∈ A.getD i [] := by
        rw [List.getD_eq_getElem _ _ h2]; exact List.getElem_mem h2
      exact hA.2 _ hrow _ hp
    · have hd : (A.getD i []).getD j (⟨0,0,0⟩ : PixB) = ⟨0,0,0⟩ :=
        List.getD_eq_default _ _ (by omega)
      rw [hd]
      exact ⟨by norm_num, by norm_num, by norm_num⟩
  · have hd : A.getD i [] = [] := List.getD_eq_default _ _ (by omega)
    rw [hd]
    exact ⟨by norm_num [List.getD], by norm_num [List.getD], by norm_num [List.getD]⟩

/-! ## reflect101 -/

theorem reflect101_lt {n : ℕ} (hn : 1 ≤ n) (i : ℤ) : reflect101 n i < n := by
  unfold reflect101
  by_cases h : n ≤ 1
  · simp [h]; omega
  · simp only [h, if_false]
    set p := (i % (2 * ((n : ℤ) - 1))).toNat with hp
    by_cases hlt : p < n
    · simpa [hlt]
    · simp only [hlt, if_false]
      omega

theorem reflect101_of_lt {n : ℕ} (i : ℕ) (h : i < n) : reflect101 n (i : ℤ) = i := by
  unfold reflect101
  by_cases h1 : n ≤ 1
  · have : i = 0 := by omega
    subst this
    simp [h1]
  · have h3 : (i : ℤ) % (2 * ((n : ℤ) - 1)) = i :=
      Int.emod_eq_of_lt (by omega) (by omega)
    simp only [h1, if_false, h3]
    simp [h]

/-! ## Kernel facts -/

theorem list_sum_eq_getD_sum (l : List ℚ) :
    l.sum = ∑ i ∈ Finset.range l.length, l.getD i 0 := by
  induction l with
  | nil => simp
  | cons a t ih =>
      rw [List.sum_cons, List.length_cons, Finset.sum_range_succ', ih]
      simp [List.getD, add_comm]

theorem binomKernel_length (n : ℕ) : (binomKernel n).length = n := by
  simp [binomKernel]

theorem binomKernel_pos {n : ℕ} (hn : 1 ≤ n) :
    ∀ x ∈ binomKernel n, 0 < x := by
  intro x hx
  simp only [binomKernel, List.mem_map, List.mem_range] at hx
  obtain ⟨t, ht, rfl⟩ := hx
  have h1 : 0 < (n - 1).choose t := Nat.choose_pos (by omega)
  positivity

theorem binomKernel_sum {n : ℕ} (hn : 1 ≤ n) : (binomKernel n).sum = 1 := by
  have h0 : ((List.range n).map (fun t => ((n - 1).choose t : ℚ) / 2 ^ (n - 1))).sum
      = ∑ t ∈ Finset.range n, ((n - 1).choose t : ℚ) / 2 ^ (n - 1) := by
    rw [list_sum_eq_getD_sum]
    simp only [List.length_map, List.length_range]
    apply Finset.sum_congr rfl
    intro i hi
    rw [getD_range_map _ _ _ (Finset.mem_range.mp hi)]
  rw [binomKernel, h0, ← Finset.sum_div, ← Nat.cast_sum]
  have h2 : n = (n - 1) + 1 := by omega
  rw [h2]
  simp only [Nat.add_sub_cancel]
  rw [Nat.sum_range_choose]
  have h4 : ((2 ^ (n - 1) : ℕ) : ℚ) = 2 ^ (n - 1) := by push_cast; ring
  rw [h4]
  have h3 : (2 : ℚ) ^ (n - 1) ≠ 0 := by positivity
  field_simp

theorem gaussKernel_length {n : ℕ} (hn : 1 ≤ n) : (gaussKernel n).length = n := by
  by_cases h1 : n = 1
  · subst h1; decide
  by_cases h3 : n = 3
  · subst h3; decide
  by_cases h5 : n = 5
  · subst h5; decide
  by_cases h7 : n = 7
  · subst h7; decide
  unfold gaussKernel
  rw [if_neg h1, if_neg h3, if_neg h5, if_neg h7, binomKernel_length]

theorem gaussKernel_pos {n : ℕ} (hn : 1 ≤ n) : ∀ x ∈ gaussKernel n, 0 < x := by
  by_cases h1 : n = 1
  · subst h1
    intro x hx
    simp only [gaussKernel, if_true, List.mem_singleton] at hx
    rw [hx]; norm_num
  by_cases h3 : n = 3
  · subst h3
    intro x hx
    simp only [gaussKernel] at hx
    norm_num at hx
    rcases hx with h | h | h <;> rw [h] <;> norm_num
  by_cases h5 : n = 5
  · subst h5
    intro x hx
    simp only [gaussKernel] at hx
    norm_num at hx
    rcases hx with h | h | h | h | h <;> rw [h] <;> norm_num
  by_cases h7 : n = 7
  · subst h7
    intro x hx
    simp only [gaussKernel] at hx
    norm_num at hx
    rcases hx with h | h | h | h | h | h | h <;> rw [h] <;> norm_num
  unfold gaussKernel
  rw [if_neg h1, if_neg h3, if_neg h5, if_neg h7]
  exact binomKernel_pos hn

theorem gaussKernel_sum {n : ℕ} (hn : 1 ≤ n) : (gaussKernel n).sum = 1 := by
  by_cases h1 : n = 1
  · subst h1; norm_num [gaussKernel]
  by_cases h3 : n = 3
  · subst h3; norm_num [gaussKernel]
  by_cases h5 : n = 5
  · subst h5; norm_num [gaussKernel]
  by_cases h7 : n = 7
  · subst h7; norm_num [gaussKernel]
  unfold gaussKernel
  rw [if_neg h1, if_neg h3, if_neg h5, if_neg h7]
  exact binomKernel_sum hn

theorem gaussKernel_getD_sum {n : ℕ} (hn : 1 ≤ n) :
    ∑ u ∈ Finset.range (gaussKernel n).length, (gaussKernel n).getD u 0 = 1 := by
  rw [← list_sum_eq_getD_sum]
  exact gaussKernel_sum hn

theorem gaussKernel_getD_pos {n : ℕ} (hn : 1 ≤ n) {u : ℕ}
    (hu : u < (gaussKernel n).length) : 0 < (gaussKernel n).getD u 0 := by
  apply gaussKernel_pos hn
  rw [List.getD_eq_getElem _ _ hu]
  exact List.getElem_mem hu

/-! ## Gaussian blur lemmas -/

theorem aij_gaussBlur (k : List ℚ) (A : AlphaMap) {i j : ℕ}
    (hi : i < A.length) (hj : j < (A.getD 0 []).length) :
    aij (gaussBlur2D k A) i j =
      ∑ u ∈ Finset.range k.length, ∑ v ∈ Finset.range k.length,
        k.getD u 0 * k.getD v 0 *
          aij A (reflect101 A.length ((i : ℤ) + u - ((k.length / 2 : ℕ) : ℤ)))
                (reflect101 (A.getD 0 []).length ((j : ℤ) + v - ((k.length / 2 : ℕ) : ℤ))) := by
  unfold gaussBlur2D aij
  rw [getD_range_map _ _ _ hi, getD_range_map _ _ _ hj]

/-- Blur with the one-point kernel `[1]` (softness 0) is the identity at
every in-range pixel. -/
theorem gaussBlur_one_pixel (A : AlphaMap) {i j : ℕ}
    (hi : i < A.length) (hj : j < (A.getD 0 []).length) :
    aij (gaussBlur2D [1] A) i j = aij A i j := by
  rw [aij_gaussBlur [1] A hi hj]
  simp only [List.length_singleton, Finset.sum_range_one, List.getD_cons_zero, one_mul]
  have ei : ∀ z : ℤ, z + ((0 : ℕ) : ℤ) - ((1 / 2 : ℕ) : ℤ) = z := by
    intro z; norm_num
  rw [ei, ei, reflect101_of_lt i hi, reflect101_of_lt j hj]

theorem kernel_getD_nonneg {k : List ℚ} (hpos : ∀ x ∈ k, 0 ≤ x) (u : ℕ) :
    0 ≤ k.getD u 0 := by
  by_cases h : u < k.length
  · apply hpos
    rw [List.getD_eq_getElem _ _ h]
    exact List.getElem_mem h
  · rw [List.getD_eq_default _ _ (by omega)]

theorem kernel_getD_pos {k : List ℚ} (hpos : ∀ x ∈ k, 0 < x) {u : ℕ}
    (h : u < k.length) : 0 < k.getD u 0 := by
  apply hpos
  rw [List.getD_eq_getElem _ _ h]
  exact List.getElem_mem h

/-- A normalized nonnegative blur of an alpha map with entries in `[0, 1]`
stays in `[0, 1]`. -/
theorem gaussBlur_mem_unit {k : List ℚ} (hpos : ∀ x ∈ k, 0 ≤ x)
    (hsum : ∑ u ∈ Finset.range k.length, k.getD u 0 = 1)
    {A : AlphaMap} (hA : ∀ i j, 0 ≤ aij A i j ∧ aij A i j ≤ 1)
    {i j : ℕ} (hi : i < A.length) (hj : j < (A.getD 0 []).length) :
    0 ≤ aij (gaussBlur2D k A) i j ∧ aij (gaussBlur2D k A) i j ≤ 1 := by
  rw [aij_gaussBlur k A hi hj]
  constructor
  · apply Finset.sum_nonneg
    intro u _
    apply Finset.sum_nonneg
    intro v _
    exact mul_nonneg (mul_nonneg (kernel_getD_nonneg hpos u) (kernel_getD_nonneg hpos v))
      (hA _ _).1
  · calc ∑ u ∈ Finset.range k.length, ∑ v ∈ Finset.range k.length,
          k.getD u 0 * k.getD v 0 *
            aij A (reflect101 A.length ((i : ℤ) + u - ((k.length / 2 : ℕ) : ℤ)))
                  (reflect101 (A.getD 0 []).length ((j : ℤ) + v - ((k.length / 2 : ℕ) : ℤ)))
        ≤ ∑ u ∈ Finset.range k.length, ∑ v ∈ Finset.range k.length,
            k.getD u 0 * k.getD v 0 := by
          apply Finset.sum_le_sum
          intro u _
          apply Finset.sum_le_sum
          intro v _
          have hw : 0 ≤ k.getD u 0 * k.getD v 0 :=
            mul_nonneg (kernel_getD_nonneg hpos u) (kernel_getD_nonneg hpos v)
          calc k.getD u 0 * k.getD v 0 * aij A _ _
              ≤ k.getD u 0 * k.getD v 0 * 1 := by
                exact mul_le_mul_of_nonneg_left (hA _ _).2 hw
            _ = k.getD u 0 * k.getD v 0 := mul_one _
      _ = 1 := by
          have : ∀ u ∈ Finset.range k.length,
              ∑ v ∈ Finset.range k.length, k.getD u 0 * k.getD v 0 = k.getD u 0 := by
            intro u _
            rw [← Finset.mul_sum, hsum, mul_one]
          rw [Finset.sum_congr rfl this, hsum]

/-- For a binary alpha map and a strictly positive kernel, the blurred value
is positive iff some kernel window position sees a 1. -/
theorem gaussBlur_binary_pos_iff {k : List ℚ} (hpos : ∀ x ∈ k, 0 < x)
    {A : AlphaMap} (hbin : BinaryMap A) {i j : ℕ}
    (hi : i < A.length) (hj : j < (A.getD 0 []).length) :
    0 < aij (gaussBlur2D k A) i j ↔
      ∃ u ∈ Finset.range k.length, ∃ v ∈ Finset.range k.length,
        aij A (reflect101 A.length ((i : ℤ) + u - ((k.length / 2 : ℕ) : ℤ)))
              (reflect101 (A.getD 0 []).length ((j : ℤ) + v - ((k.length / 2 : ℕ) : ℤ))) = 1 := by
  have hpos' : ∀ x ∈ k, 0 ≤ x := fun x hx => le_of_lt (hpos x hx)
  rw [aij_gaussBlur k A hi hj]
  constructor
  · intro hlt
    by_contra hc
    push_neg at hc
    have hz : ∀ u ∈ Finset.range k.length, ∀ v ∈ Finset.range k.length,
        aij A (reflect101 A.length ((i : ℤ) + u - ((k.length / 2 : ℕ) : ℤ)))
              (reflect101 (A.getD 0 []).length ((j : ℤ) + v - ((k.length / 2 : ℕ) : ℤ))) = 0 := by
      intro u hu v hv
      rcases hbin (reflect101 A.length ((i : ℤ) + u - ((k.length / 2 : ℕ) : ℤ)))
        (reflect101 (A.getD 0 []).length ((j : ℤ) + v - ((k.length / 2 : ℕ) : ℤ))) with h0 | h1
      · exact h0
      · exact absurd h1 (hc u hu v hv)
    have : (∑ u ∈ Finset.range k.length, ∑ v ∈ Finset.range k.length,
        k.getD u 0 * k.getD v 0 *
          aij A (reflect101 A.length ((i : ℤ) + u - ((k.length / 2 : ℕ) : ℤ)))
                (reflect101 (A.getD 0 []).length ((j : ℤ) + v - ((k.length / 2 : ℕ) : ℤ)))) = 0 := by
      apply Finset.sum_eq_zero
      intro u hu
      apply Finset.sum_eq_zero
      intro v hv
      rw [hz u hu v hv, mul_zero]
    rw [this] at hlt
    exact lt_irrefl 0 hlt
  · rintro ⟨u, hu, v, hv, h1⟩
    apply Finset.sum_pos'
    · intro u' _
      apply Finset.sum_nonneg
      intro v' _
      exact mul_nonneg (mul_nonneg (kernel_getD_nonneg hpos' u') (kernel_getD_nonneg hpos' v'))
        (by rcases hbin _ _ with h | h <;> rw [h] <;> norm_num)
    · refine ⟨u, hu, ?_⟩
      apply Finset.sum_pos'
      · intro v' _
        exact mul_nonneg (mul_nonneg (kernel_getD_nonneg hpos' u) (kernel_getD_nonneg hpos' v'))
          (by rcases hbin _ _ with h | h <;> rw [h] <;> norm_num)
      · refine ⟨v, hv, ?_⟩
        rw [h1, mul_one]
        exact mul_pos (kernel_getD_pos hpos (Finset.mem_range.mp hu))
          (kernel_getD_pos hpos (Finset.mem_range.mp hv))

/-- The product kernel of a normalized 1-D kernel is normalized. -/
theorem kernel_prod_sum_one {k : List ℚ}
    (hsum : ∑ u ∈ Finset.range k.length, k.getD u 0 = 1) :
    ∑ u ∈ Finset.range k.length, ∑ v ∈ Finset.range k.length,
      k.getD u 0 * k.getD v 0 = 1 := by
  have h : ∀ u ∈ Finset.range k.length,
      ∑ v ∈ Finset.range k.length, k.getD u 0 * k.getD v 0 = k.getD u 0 := by
    intro u _
    rw [← Finset.mul_sum, hsum, mul_one]
  rw [Finset.sum_congr rfl h, hsum]

/-- For a binary alpha map and a strictly positive normalized kernel, the
blurred value is below 1 iff some kernel window position sees a 0. -/
theorem gaussBlur_binary_lt_one_iff {k : List ℚ} (hpos : ∀ x ∈ k, 0 < x)
    (hsum : ∑ u ∈ Finset.range k.length, k.getD u 0 = 1)
    {A : AlphaMap} (hbin : BinaryMap A) {i j : ℕ}
    (hi : i < A.length) (hj : j < (A.getD 0 []).length) :
    aij (gaussBlur2D k A) i j < 1 ↔
      ∃ u ∈ Finset.range k.length, ∃ v ∈ Finset.range k.length,
        aij A (reflect101 A.length ((i : ℤ) + u - ((k.length / 2 : ℕ) : ℤ)))
              (reflect101 (A.getD 0 []).length ((j : ℤ) + v - ((k.length / 2 : ℕ) : ℤ))) = 0 := by
  have hpos' : ∀ x ∈ k, 0 ≤ x := fun x hx => le_of_lt (hpos x hx)
  rw [aij_gaussBlur k A hi hj]
  constructor
  · intro hlt
    by_contra hc
    push_neg at hc
    have ho : ∀ u ∈ Finset.range k.length, ∀ v ∈ Finset.range k.length,
        aij A (reflect101 A.length ((i : ℤ) + u - ((k.length / 2 : ℕ) : ℤ)))
              (reflect101 (A.getD 0 []).length ((j : ℤ) + v - ((k.length / 2 : ℕ) : ℤ))) = 1 := by
      intro u hu v hv
      rcases hbin (reflect101 A.length ((i : ℤ) + u - ((k.length / 2 : ℕ) : ℤ)))
        (reflect101 (A.getD 0 []).length ((j : ℤ) + v - ((k.length / 2 : ℕ) : ℤ))) with h0 | h1
      · exact absurd h0 (hc u hu v hv)
      · exact h1
    have heq : (∑ u ∈ Finset.range k.length, ∑ v ∈ Finset.range k.length,
        k.getD u 0 * k.getD v 0 *
          aij A (reflect101 A.length ((i : ℤ) + u - ((k.length / 2 : ℕ) : ℤ)))
                (reflect101 (A.getD 0 []).length ((j : ℤ) + v - ((k.length / 2 : ℕ) : ℤ)))) = 1 := by
      rw [← kernel_prod_sum_one hsum]
      apply Finset.sum_congr rfl
      intro u hu
      apply Finset.sum_congr rfl
      intro v hv
      rw [ho u hu v hv, mul_one]
    rw [heq] at hlt
    exact lt_irrefl 1 hlt
  · rintro ⟨u, hu, v, hv, h0⟩
    calc ∑ u' ∈ Finset.range k.length, ∑ v' ∈ Finset.range k.length,
          k.getD u' 0 * k.getD v' 0 *
            aij A (reflect101 A.length ((i : ℤ) + u' - ((k.length / 2 : ℕ) : ℤ)))
                  (reflect101 (A.getD 0 []).length ((j : ℤ) + v' - ((k.length / 2 : ℕ) : ℤ)))
        < ∑ u' ∈ Finset.range k.length, ∑ v' ∈ Finset.range k.length,
            k.getD u' 0 * k.getD v' 0 := by
          apply Finset.sum_lt_sum
          · intro u' _
            apply Finset.sum_le_sum
            intro v' _
            have hw : 0 ≤ k.getD u' 0 * k.getD v' 0 :=
              mul_nonneg (kernel_getD_nonneg hpos' u') (kernel_getD_nonneg hpos' v')
            have hm : aij A (reflect101 A.length ((i : ℤ) + u' - ((k.length / 2 : ℕ) : ℤ)))
                (reflect101 (A.getD 0 []).length ((j : ℤ) + v' - ((k.length / 2 : ℕ) : ℤ))) ≤ 1 := by
              rcases hbin _ _ with h | h <;> rw [h] <;> norm_num
            calc k.getD u' 0 * k.getD v' 0 * aij A _ _
                ≤ k.getD u' 0 * k.getD v' 0 * 1 := mul_le_mul_of_nonneg_left hm hw
              _ = k.getD u' 0 * k.getD v' 0 := mul_one _
          · refine ⟨u, hu, ?_⟩
            apply Finset.sum_lt_sum
            · intro v' _
              have hw : 0 ≤ k.getD u 0 * k.getD v' 0 :=
                mul_nonneg (kernel_getD_nonneg hpos' u) (kernel_getD_nonneg hpos' v')
              have hm : aij A (reflect101 A.length ((i : ℤ) + u - ((k.length / 2 : ℕ) : ℤ)))
                  (reflect101 (A.getD 0 []).length ((j : ℤ) + v' - ((k.length / 2 : ℕ) : ℤ))) ≤ 1 := by
                rcases hbin _ _ with h | h <;> rw [h] <;> norm_num
              calc k.getD u 0 * k.getD v' 0 * aij A _ _
                  ≤ k.getD u 0 * k.getD v' 0 * 1 := mul_le_mul_of_nonneg_left hm hw
                _ = k.getD u 0 * k.getD v' 0 := mul_one _
            · refine ⟨v, hv, ?_⟩
              rw [h0, mul_zero]
              exact mul_pos (kernel_getD_pos hpos (Finset.mem_range.mp hu))
                (kernel_getD_pos hpos (Finset.mem_range.mp hv))
      _ = 1 := kernel_prod_sum_one hsum

theorem blurSize_eq (s : ℕ) : blurSize s = 4 * s + 1 := by
  unfold blurSize; omega

theorem blurSize_anchor (s : ℕ) : blurSize s / 2 = 2 * s := by
  rw [blurSize_eq]; omega

/-- Monotone feather growth: with a larger (positive, normalized) kernel, the
transition band of a blurred binary mask includes the band of a smaller one. -/
theorem band_mono {s₁ s₂ : ℕ} (hs : s₁ ≤ s₂) {k₁ k₂ : List ℚ}
    (h1len : k₁.length = blurSize s₁) (h2len : k₂.length = blurSize s₂)
    (h1pos : ∀ x ∈ k₁, 0 < x) (h2pos : ∀ x ∈ k₂, 0 < x)
    (h1sum : ∑ u ∈ Finset.range k₁.length, k₁.getD u 0 = 1)
    (h2sum : ∑ u ∈ Finset.range k₂.length, k₂.getD u 0 = 1)
    {A : AlphaMap} (hbin : BinaryMap A) {i j : ℕ}
    (hi : i < A.length) (hj : j < (A.getD 0 []).length)
    (hband : inBand (gaussBlur2D k₁ A) i j) : inBand (gaussBlur2D k₂ A) i j := by
  obtain ⟨hb0, hb1⟩ := hband
  have ha1 : k₁.length / 2 = 2 * s₁ := by rw [h1len, blurSize_anchor]
  have ha2 : k₂.length / 2 = 2 * s₂ := by rw [h2len, blurSize_anchor]
  rw [gaussBlur_binary_pos_iff h1pos hbin hi hj] at hb0
  rw [gaussBlur_binary_lt_one_iff h1pos h1sum hbin hi hj] at hb1
  obtain ⟨u, hu, v, hv, hone⟩ := hb0
  obtain ⟨u', hu', v', hv', hzero⟩ := hb1
  have hlift : ∀ w : ℕ, w ∈ Finset.range k₁.length →
      (w + 2 * (s₂ - s₁)) ∈ Finset.range k₂.length ∧
        ∀ z : ℤ, z + ((w + 2 * (s₂ - s₁) : ℕ) : ℤ) - ((k₂.length / 2 : ℕ) : ℤ)
          = z + (w : ℤ) - ((k₁.length / 2 : ℕ) : ℤ) := by
    intro w hw
    rw [Finset.mem_range] at hw
    rw [h1len, blurSize_eq] at hw
    constructor
    · rw [Finset.mem_range, h2len, blurSize_eq]
      omega
    · intro z
      rw [ha1, ha2]
      push_cast
      omega
  constructor
  · rw [gaussBlur_binary_pos_iff h2pos hbin hi hj]
    refine ⟨u + 2 * (s₂ - s₁), (hlift u hu).1, v + 2 * (s₂ - s₁), (hlift v hv).1, ?_⟩
    rw [(hlift u hu).2 (i : ℤ), (hlift v hv).2 (j : ℤ)]
    exact hone
  · rw [gaussBlur_binary_lt_one_iff h2pos h2sum hbin hi hj]
    refine ⟨u' + 2 * (s₂ - s₁), (hlift u' hu').1, v' + 2 * (s₂ - s₁), (hlift v' hv').1, ?_⟩
    rw [(hlift u' hu').2 (i : ℤ), (hlift v' hv').2 (j : ℤ)]
    exact hzero

/-! ## Alpha-map and composite access lemmas -/

theorem maskVal_cases (key : HSV) (tol : ℕ) (q : HSV) :
    maskVal key tol q = 0 ∨ maskVal key tol q = 255 := by
  unfold maskVal
  split
  · exact Or.inr rfl
  · exact Or.inl rfl

theorem alpha0Of_length (frame : RasterB) (kc : PixB) (tol : ℕ) :
    (alpha0Of frame kc tol).length = frame.length := by
  simp [alpha0Of, maskOf]

theorem alpha0Of_row (frame : RasterB) (kc : PixB) (tol : ℕ) {i : ℕ}
    (hi : i < frame.length) :
    (alpha0Of frame kc tol).getD i [] =
      (frame.getD i []).map fun p =>
        ((maskVal (bgr2hsv kc) tol (bgr2hsv p) : ℕ) : ℚ) / 255 := by
  unfold alpha0Of maskOf
  rw [getD_map_lt (fun row => row.map fun (m : ℕ) => (m : ℚ) / 255) _ i
    (by simpa using hi) [] []]
  rw [getD_map_lt (fun row => row.map fun p =>
    maskVal (bgr2hsv kc) tol (bgr2hsv p)) _ i hi [] []]
  rw [List.map_map]
  rfl

theorem alpha0Of_row_length (frame : RasterB) (kc : PixB) (tol : ℕ) (i : ℕ) :
    ((alpha0Of frame kc tol).getD i []).length = (frame.getD i []).length := by
  by_cases hi : i < frame.length
  · rw [alpha0Of_row frame kc tol hi]
    simp
  · rw [List.getD_eq_default _ _ (by rw [alpha0Of_length]; omega)]
    rw [List.getD_eq_default _ _ (by omega)]
    rfl

theorem alpha0Of_width (frame : RasterB) (kc : PixB) (tol : ℕ) :
    ((alpha0Of frame kc tol).getD 0 []).length = (frame.getD 0 []).length :=
  alpha0Of_row_length frame kc tol 0

theorem aij_alpha0Of (frame : RasterB) (kc : PixB) (tol : ℕ) {i j : ℕ}
    (hi : i < frame.length) (hj : j < (frame.getD i []).length) :
    aij (alpha0Of frame kc tol) i j =
      (maskVal (bgr2hsv kc) tol (bgr2hsv (px frame i j)) : ℚ) / 255 := by
  unfold aij
  rw [alpha0Of_row frame kc tol hi]
  rw [getD_map_lt (fun p => ((maskVal (bgr2hsv kc) tol (bgr2hsv p) : ℕ) : ℚ) / 255) _ j
    (by simpa using hj) 0 ⟨0, 0, 0⟩]
  rfl

theorem alpha0Of_binary (frame : RasterB) (kc : PixB) (tol : ℕ) :
    BinaryMap (alpha0Of frame kc tol) := by
  intro i j
  by_cases hi : i < frame.length
  · by_cases hj : j < (frame.getD i []).length
    · rw [aij_alpha0Of frame kc tol hi hj]
      rcases maskVal_cases (bgr2hsv kc) tol (bgr2hsv (px frame i j)) with h | h <;> rw [h]
      · left; norm_num
      · right; norm_num
    · left
      unfold aij
      rw [List.getD_eq_default _ _ (by rw [alpha0Of_row_length]; omega)]
  · left
    unfold aij
    have h1 : (alpha0Of frame kc tol).getD i [] = [] :=
      List.getD_eq_default _ _ (by rw [alpha0Of_length]; omega)
    rw [h1]
    simp [List.getD]

theorem alpha0Of_mem_unit (frame : RasterB) (kc : PixB) (tol : ℕ) :
    ∀ i j, 0 ≤ aij (alpha0Of frame kc tol) i j ∧ aij (alpha0Of frame kc tol) i j ≤ 1 := by
  intro i j
  rcases alpha0Of_binary frame kc tol i j with h | h <;> rw [h] <;> constructor <;> norm_num

/-- The blurred alpha of any frame, key color and parameters lies in `[0, 1]`
at every in-range pixel. -/
theorem alphaMapOf_mem_unit (frame : RasterB) (kc : PixB) (tol soft : ℕ) {i j : ℕ}
    (hi : i < frame.length) (hj : j < (frame.getD 0 []).length) :
    0 ≤ aij (alphaMapOf frame kc tol soft) i j ∧
      aij (alphaMapOf frame kc tol soft) i j ≤ 1 := by
  unfold alphaMapOf
  have hn : 1 ≤ blurSize soft := by rw [blurSize_eq]; omega
  apply gaussBlur_mem_unit
  · intro x hx
    exact le_of_lt (gaussKernel_pos hn x hx)
  · exact gaussKernel_getD_sum hn
  · exact alpha0Of_mem_unit frame kc tol
  · rw [alpha0Of_length]; exact hi
  · rw [alpha0Of_width]; exact hj

theorem toByte_le (q : ℚ) : toByte q ≤ 255 := by
  unfold toByte clipQ
  have h1 : min (255 : ℚ) (max 0 q) ≤ 255 := min_le_left _ _
  have h2 : ⌊min (255 : ℚ) (max 0 q)⌋ ≤ 255 := by
    have := Int.floor_le_floor h1
    simpa using this
  omega

theorem toByte_natCast {n : ℕ} (h : n ≤ 255) : toByte (n : ℚ) = n := by
  unfold toByte clipQ
  have h0 : max (0 : ℚ) (n : ℚ) = (n : ℚ) := max_eq_right (by positivity)
  have h1 : min (255 : ℚ) (n : ℚ) = (n : ℚ) := min_eq_right (by exact_mod_cast h)
  rw [h0, h1, Int.floor_natCast]
  simp

theorem px_compositeCore (frame bgRes : RasterB) (kc : PixB)
    (tol soft spill : ℕ) {i j : ℕ}
    (hi : i < frame.length) (hj : j < (frame.getD 0 []).length) :
    px (compositeCore frame bgRes kc tol soft spill) i j =
      ⟨toByte (aij (alphaMapOf frame kc tol soft) i j * (px bgRes i j).b
          + (1 - aij (alphaMapOf frame kc tol soft) i j) * (px frame i j).b),
       toByte (if 0 < spill then
            clipQ (aij (alphaMapOf frame kc tol soft) i j * (px bgRes i j).g
              + (1 - aij (alphaMapOf frame kc tol soft) i j) * (px frame i j).g - spill) 0 255
          else aij (alphaMapOf frame kc tol soft) i j * (px bgRes i j).g
              + (1 - aij (alphaMapOf frame kc tol soft) i j) * (px frame i j).g),
       toByte (aij (alphaMapOf frame kc tol soft) i j * (px bgRes i j).r
          + (1 - aij (alphaMapOf frame kc tol soft) i j) * (px frame i j).r)⟩ := by
  unfold compositeCore px
  rw [getD_range_map _ _ _ hi, getD_range_map _ _ _ hj]

theorem compositeCore_rect (frame bgRes : RasterB) (kc : PixB) (tol soft spill : ℕ) :
    Rect (compositeCore frame bgRes kc tol soft spill)
      frame.length (frame.getD 0 []).length := by
  unfold compositeCore
  constructor
  · simp
  · intro row hrow
    simp only [List.mem_map, List.mem_range] at hrow
    obtain ⟨i, _, rfl⟩ := hrow
    simp

theorem compositeCore_valid (frame bgRes : RasterB) (kc : PixB) (tol soft spill : ℕ) :
    ValidB (compositeCore frame bgRes kc tol soft spill)
      frame.length (frame.getD 0 []).length := by
  refine ⟨compositeCore_rect frame bgRes kc tol soft spill, ?_⟩
  intro row hrow p hp
  unfold compositeCore at hrow
  simp only [List.mem_map, List.mem_range] at hrow
  obtain ⟨i, _, rfl⟩ := hrow
  simp only [List.mem_map, List.mem_range] at hp
  obtain ⟨j, _, rfl⟩ := hp
  exact ⟨toByte_le _, toByte_le _, toByte_le _⟩

theorem cvResize_same {src : RasterB} {h w : ℕ} (hrect : Rect src h w) :
    cvResize src w h = src := by
  unfold cvResize
  by_cases hc : src.length = h ∧ widthOf src = w
  · rw [if_pos hc]
  · rw [if_neg hc]
    have h1 : src.length = h := hrect.1
    have hnw : ¬ widthOf src = w := by tauto
    have hempty : src = [] := by
      by_contra hne
      have h0 : 0 < src.length := List.length_pos.mpr hne
      apply hnw
      unfold widthOf
      apply hrect.2
      rw [List.getD_eq_getElem _ _ h0]
      exact List.getElem_mem h0
    subst hempty
    have h2 : h = 0 := by rw [← h1]; rfl
    subst h2
    simp

/-! ## Key-everywhere and key-nowhere engines -/

theorem rect_row_len {a : RasterB} {hh ww : ℕ} (h : Rect a hh ww) {i : ℕ}
    (hi : i < hh) : (a.getD i []).length = ww := by
  have h1 : i < a.length := by rw [h.1]; exact hi
  rw [List.getD_eq_getElem _ _ h1]
  exact h.2 _ (List.getElem_mem h1)

theorem rect_width {a : RasterB} {hh ww : ℕ} (h : Rect a hh ww) (hpos : 0 < hh) :
    widthOf a = ww := by
  unfold widthOf
  exact rect_row_len h hpos

theorem gaussKernel_one : gaussKernel 1 = [1] := rfl

theorem blurSize_zero : blurSize 0 = 1 := rfl

/-- When softness is 0 the blur is the identity: the alpha map equals the
raw binary mask value at every in-range pixel. -/
theorem alphaMapOf_soft_zero (frame : RasterB) (kc : PixB) (tol : ℕ) {i j : ℕ}
    (hi : i < frame.length) (hj : j < (frame.getD 0 []).length) :
    aij (alphaMapOf frame kc tol 0) i j = aij (alpha0Of frame kc tol) i j := by
  unfold alphaMapOf
  rw [blurSize_zero, gaussKernel_one]
  apply gaussBlur_one_pixel
  · rw [alpha0Of_length]; exact hi
  · rw [alpha0Of_width]; exact hj

/-- If every in-range pixel of the frame matches the mask, softness 0 gives
alpha exactly 1 everywhere. -/
theorem alphaMapOf_one {frame : RasterB} {kc : PixB} {tol : ℕ} {hh ww : ℕ}
    (hF : Rect frame hh ww)
    (hmask : ∀ i j, i < hh → j < ww →
      maskVal (bgr2hsv kc) tol (bgr2hsv (px frame i j)) = 255)
    {i j : ℕ} (hi : i < hh) (hj : j < ww) :
    aij (alphaMapOf frame kc tol 0) i j = 1 := by
  have hi' : i < frame.length := by rw [hF.1]; exact hi
  have hj0 : j < (frame.getD 0 []).length := by
    rw [rect_row_len hF (by omega)]; exact hj
  have hji : j < (frame.getD i []).length := by
    rw [rect_row_len hF hi]; exact hj
  rw [alphaMapOf_soft_zero frame kc tol hi' hj0]
  rw [aij_alpha0Of frame kc tol hi' hji]
  rw [hmask i j hi hj]
  norm_num

/-- If no in-range pixel of the frame matches the mask, softness 0 gives
alpha exactly 0 everywhere. -/
theorem alphaMapOf_zero {frame : RasterB} {kc : PixB} {tol : ℕ} {hh ww : ℕ}
    (hF : Rect frame hh ww)
    (hmask : ∀ i j, i < hh → j < ww →
      maskVal (bgr2hsv kc) tol (bgr2hsv (px frame i j)) = 0)
    {i j : ℕ} (hi : i < hh) (hj : j < ww) :
    aij (alphaMapOf frame kc tol 0) i j = 0 := by
  have hi' : i < frame.length := by rw [hF.1]; exact hi
  have hj0 : j < (frame.getD 0 []).length := by
    rw [rect_row_len hF (by omega)]; exact hj
  have hji : j < (frame.getD i []).length := by
    rw [rect_row_len hF hi]; exact hj
  rw [alphaMapOf_soft_zero frame kc tol hi' hj0]
  rw [aij_alpha0Of frame kc tol hi' hji]
  rw [hmask i j hi hj]
  norm_num

theorem toByte_clip_sub (n s : ℕ) (hn : n ≤ 255) :
    toByte (clipQ ((n : ℚ) - s) 0 255) = n - s := by
  unfold toByte clipQ
  rcases le_or_lt s n with h | h
  · have h1 : (0 : ℚ) ≤ (n : ℚ) - s := by
      have h' : (s : ℚ) ≤ (n : ℚ) := by exact_mod_cast h
      linarith
    have h2 : (n : ℚ) - s ≤ 255 := by
      have h3 : (n : ℚ) ≤ 255 := by exact_mod_cast hn
      have h4 : (0 : ℚ) ≤ (s : ℚ) := by positivity
      linarith
    rw [max_eq_right h1, min_eq_right h2, max_eq_right h1, min_eq_right h2]
    have h5 : (n : ℚ) - s = ((n - s : ℕ) : ℚ) := by
      push_cast [h]
      ring
    rw [h5, Int.floor_natCast]
    simp
  · have h1 : (n : ℚ) - s < 0 := by
      have h' : (n : ℚ) < (s : ℚ) := by exact_mod_cast h
      linarith
    rw [max_eq_left (le_of_lt h1), min_eq_right (by norm_num : (0:ℚ) ≤ 255),
      max_eq_right (le_refl (0:ℚ)), min_eq_right (by norm_num : (0:ℚ) ≤ 255)]
    have h6 : n - s = 0 := by omega
    rw [h6]
    simp

/-- The full-replacement engine: with a mask that keys every pixel and
softness 0, each output pixel is the background pixel with the green channel
reduced by `color_spill` (truncated subtraction). -/
theorem perform_img_uniform_key {F B : RasterB} {hh ww : ℕ} (kc : PixB)
    (tol spill : ℕ) (hF : ValidB F hh ww) (hB : ValidB B hh ww)
    (hmask : ∀ i j, i < hh → j < ww →
      maskVal (bgr2hsv kc) tol (bgr2hsv (px F i j)) = 255) :
    Rect ((perform_chroma_key F (some (.img B)) kc tol 0 spill).1) hh ww ∧
    ∀ i j, i < hh → j < ww →
      px ((perform_chroma_key F (some (.img B)) kc tol 0 spill).1) i j =
        ⟨(px B i j).b, (px B i j).g - spill, (px B i j).r⟩ := by
  have hBr : Rect B F.length (widthOf F) := by
    rcases Nat.eq_zero_or_pos hh with h0 | hpos
    · subst h0
      have hFe : F = [] := List.length_eq_zero.mp hF.1.1
      have hBe : B = [] := List.length_eq_zero.mp hB.1.1
      subst hFe; subst hBe
      exact ⟨rfl, by intro row hrow; cases hrow⟩
    · rw [hF.1.1, rect_width hF.1 hpos]
      exact hB.1
  have hres : cvResize B (widthOf F) F.length = B := cvResize_same hBr
  have hperf : (perform_chroma_key F (some (.img B)) kc tol 0 spill).1 =
      compositeCore F (cvResize B (widthOf F) F.length) kc tol 0 spill := rfl
  rw [hperf, hres]
  constructor
  · have hr := compositeCore_rect F B kc tol 0 spill
    rcases Nat.eq_zero_or_pos hh with h0 | hpos
    · subst h0
      have hFe : F = [] := List.length_eq_zero.mp hF.1.1
      subst hFe
      have hnil := List.length_eq_zero.mp hr.1
      rw [hnil]
      exact ⟨rfl, by intro row hrow; cases hrow⟩
    · rw [← hF.1.1, ← rect_width hF.1 hpos]
      unfold widthOf
      exact hr
  · intro i j hi hj
    have hi' : i < F.length := by rw [hF.1.1]; exact hi
    have hj' : j < (F.getD 0 []).length := by
      rw [rect_row_len hF.1 (by omega)]; exact hj
    rw [px_compositeCore F B kc tol 0 spill hi' hj']
    rw [alphaMapOf_one hF.1 hmask hi hj]
    have e1 : ∀ x y : ℚ, 1 * x + (1 - 1) * y = x := by intro x y; ring
    rw [e1, e1, e1]
    obtain ⟨hb, hg, hr⟩ := px_byte hB i j
    rcases Nat.eq_zero_or_pos spill with hs | hs
    · subst hs
      rw [if_neg (by omega)]
      rw [toByte_natCast hb, toByte_natCast hg, toByte_natCast hr]
      rfl
    · rw [if_pos hs]
      rw [toByte_natCast hb, toByte_natCast hr, toByte_clip_sub _ _ hg]

/-- The no-replacement engine: with a mask that keys no pixel, softness 0 and
no spill, the composite returns the foreground unchanged. -/
theorem perform_img_no_key {F B : RasterB} {hh ww : ℕ} (kc : PixB) (tol : ℕ)
    (hF : ValidB F hh ww)
    (hmask : ∀ i j, i < hh → j < ww →
      maskVal (bgr2hsv kc) tol (bgr2hsv (px F i j)) = 0) :
    (perform_chroma_key F (some (.img B)) kc tol 0 0).1 = F := by
  have hperf : (perform_chroma_key F (some (.img B)) kc tol 0 0).1 =
      compositeCore F (cvResize B (widthOf F) F.length) kc tol 0 0 := rfl
  rw [hperf]
  have hrect : Rect (compositeCore F (cvResize B (widthOf F) F.length) kc tol 0 0)
      hh ww := by
    have hr := compositeCore_rect F (cvResize B (widthOf F) F.length) kc tol 0 0
    rcases Nat.eq_zero_or_pos hh with h0 | hpos
    · subst h0
      have hFe : F = [] := List.length_eq_zero.mp hF.1.1
      subst hFe
      have hnil := List.length_eq_zero.mp hr.1
      rw [hnil]
      exact ⟨rfl, by intro row hrow; cases hrow⟩
    · rw [← hF.1.1, ← rect_width hF.1 hpos]
      unfold widthOf
      exact hr
  apply rect_ext hrect hF.1
  intro i j hi hj
  have hi' : i < F.length := by rw [hF.1.1]; exact hi
  have hj' : j < (F.getD 0 []).length := by
    rw [rect_row_len hF.1 (by omega)]; exact hj
  rw [px_compositeCore F _ kc tol 0 0 hi' hj']
  rw [alphaMapOf_zero hF.1 hmask hi hj]
  have e0 : ∀ x y : ℚ, 0 * x + (1 - 0) * y = y := by intro x y; ring
  rw [e0, e0, e0]
  rw [if_neg (by omega)]
  obtain ⟨hb, hg, hr⟩ := px_byte hF i j
  rw [toByte_natCast hb, toByte_natCast hg, toByte_natCast hr]

/-- Full replacement with no spill: the composite of a frame whose every
pixel is keyed returns the background raster exactly. -/
theorem perform_img_uniform_key_eq {F B : RasterB} {hh ww : ℕ} (kc : PixB)
    (tol : ℕ) (hF : ValidB F hh ww) (hB : ValidB B hh ww)
    (hmask : ∀ i j, i < hh → j < ww →
      maskVal (bgr2hsv kc) tol (bgr2hsv (px F i j)) = 255) :
    (perform_chroma_key F (some (.img B)) kc tol 0 0).1 = B := by
  obtain ⟨hrect, hpx⟩ := perform_img_uniform_key kc tol 0 hF hB hmask
  apply rect_ext hrect hB.1
  intro i j hi hj
  rw [hpx i j hi hj]
  rw [Nat.sub_zero]

/-! ## Claim C10 -/

/-- C10: if the background source argument is `None`, `perform_chroma_key`
returns the foreground frame unchanged for every setting of the other
parameters — no keying, no blur and no spill suppression (even when
`color_spill > 0`) — and does not fail. -/
theorem c10_none_background_passthrough :
    ∀ (frame : RasterB) (kc : PixB) (tol soft spill : ℕ),
      perform_chroma_key frame none kc tol soft spill = (frame, none) :=
  fun _ _ _ _ _ => rfl

/-! ## Claim C8 -/

/-- C8 (amended): `perform_chroma_key` is deterministic and side-effect-free
when the background source is `None` or a static image raster: the background
source comes back unchanged and an immediately repeated call on the returned
source produces the identical output raster.  (With a video-capture source
this fails; see the counterexample.) -/
theorem c8_image_background_pure :
    ∀ (frame : RasterB) (kc : PixB) (tol soft spill : ℕ) (a : RasterB),
      (perform_chroma_key frame (some (.img a)) kc tol soft spill).2 = some (.img a) ∧
      (perform_chroma_key frame none kc tol soft spill).2 = none ∧
      (perform_chroma_key frame
          ((perform_chroma_key frame (some (.img a)) kc tol soft spill).2)
          kc tol soft spill).1 =
        (perform_chroma_key frame (some (.img a)) kc tol soft spill).1 :=
  fun _ _ _ _ _ _ => ⟨rfl, rfl, rfl⟩

/-- C8 counterexample: with a `cv2.VideoCapture` background (a 2-frame
capture, all-white then all-black), a call on a pure-green foreground returns
the white frame and advances the capture (the returned source differs from
the one passed in); the immediately repeated call returns the black frame.
So `perform_chroma_key` on a video source mutates its input and is not
deterministic across identical calls. -/
theorem c8_video_background_mutates :
    (perform_chroma_key [[⟨0,255,0⟩]]
        (some (.vid ⟨[[[⟨255,255,255⟩]], [[⟨0,0,0⟩]]], 0⟩)) ⟨0,255,0⟩ 10 0 0).1
      = [[⟨255,255,255⟩]] ∧
    (perform_chroma_key [[⟨0,255,0⟩]]
        ((perform_chroma_key [[⟨0,255,0⟩]]
            (some (.vid ⟨[[[⟨255,255,255⟩]], [[⟨0,0,0⟩]]], 0⟩)) ⟨0,255,0⟩ 10 0 0).2)
        ⟨0,255,0⟩ 10 0 0).1 = [[⟨0,0,0⟩]] ∧
    ([[⟨255,255,255⟩]] : RasterB) ≠ [[⟨0,0,0⟩]] ∧
    (perform_chroma_key [[⟨0,255,0⟩]]
        (some (.vid ⟨[[[⟨255,255,255⟩]], [[⟨0,0,0⟩]]], 0⟩)) ⟨0,255,0⟩ 10 0 0).2
      ≠ some (.vid ⟨[[[⟨255,255,255⟩]], [[⟨0,0,0⟩]]], 0⟩) := by
  have hmask : ∀ i j, i < 1 → j < 1 →
      maskVal (bgr2hsv (⟨0,255,0⟩ : PixB)) 10
        (bgr2hsv (px [[⟨0,255,0⟩]] i j)) = 255 := by
    intro i j hi hj
    have hi0 : i = 0 := by omega
    have hj0 : j = 0 := by omega
    subst hi0; subst hj0
    decide
  refine ⟨?_, ?_, by decide, by decide⟩
  · have hbr : (perform_chroma_key [[⟨0,255,0⟩]]
        (some (.vid ⟨[[[⟨255,255,255⟩]], [[⟨0,0,0⟩]]], 0⟩)) ⟨0,255,0⟩ 10 0 0).1 =
        (perform_chroma_key [[⟨0,255,0⟩]]
          (some (.img [[⟨255,255,255⟩]])) ⟨0,255,0⟩ 10 0 0).1 := rfl
    rw [hbr]
    exact perform_img_uniform_key_eq ⟨0,255,0⟩ 10
      (show ValidB [[⟨0,255,0⟩]] 1 1 by decide)
      (show ValidB [[⟨255,255,255⟩]] 1 1 by decide) hmask
  · have hst : (perform_chroma_key [[⟨0,255,0⟩]]
        (some (.vid ⟨[[[⟨255,255,255⟩]], [[⟨0,0,0⟩]]], 0⟩)) ⟨0,255,0⟩ 10 0 0).2 =
        some (.vid ⟨[[[⟨255,255,255⟩]], [[⟨0,0,0⟩]]], 1⟩) := rfl
    rw [hst]
    have hbr : (perform_chroma_key [[⟨0,255,0⟩]]
        (some (.vid ⟨[[[⟨255,255,255⟩]], [[⟨0,0,0⟩]]], 1⟩)) ⟨0,255,0⟩ 10 0 0).1 =
        (perform_chroma_key [[⟨0,255,0⟩]]
          (some (.img [[⟨0,0,0⟩]])) ⟨0,255,0⟩ 10 0 0).1 := rfl
    rw [hbr]
    exact perform_img_uniform_key_eq ⟨0,255,0⟩ 10
      (show ValidB [[⟨0,255,0⟩]] 1 1 by decide)
      (show ValidB [[⟨0,0,0⟩]] 1 1 by decide) hmask

/-! ## HSV range lemmas -/

/-- The 8-bit OpenCV hue is at most 179. -/
theorem bgr2hsv_h_le (p : PixB) : (bgr2hsv p).h ≤ 179 := by
  unfold bgr2hsv
  dsimp only
  have hgv : p.g ≤ max p.r (max p.g p.b) := by omega
  have hbv : p.b ≤ max p.r (max p.g p.b) := by omega
  have hrv : p.r ≤ max p.r (max p.g p.b) := by omega
  have hgm : min p.r (min p.g p.b) ≤ p.g := by omega
  have hbm : min p.r (min p.g p.b) ≤ p.b := by omega
  have hrm : min p.r (min p.g p.b) ≤ p.r := by omega
  set v := max p.r (max p.g p.b) with hv
  set mn := min p.r (min p.g p.b) with hmn
  by_cases hd : v - mn = 0
  · simp only [hd, if_pos rfl]
    omega
  · rw [if_neg hd]
    have hdpos : (0 : ℤ) < 2 * ((v - mn : ℕ) : ℤ) := by omega
    have hbound : ∀ c : ℤ, -((v - mn : ℕ) : ℤ) ≤ c → c ≤ 5 * ((v - mn : ℕ) : ℤ) →
        -30 ≤ (60 * c + ((v - mn : ℕ) : ℤ)) / (2 * ((v - mn : ℕ) : ℤ)) ∧
          (60 * c + ((v - mn : ℕ) : ℤ)) / (2 * ((v - mn : ℕ) : ℤ)) ≤ 150 := by
      intro c hc1 hc2
      constructor
      · have h3 : (-30 : ℤ) ≤ (60 * c + ((v - mn : ℕ) : ℤ)) / (2 * ((v - mn : ℕ) : ℤ)) :=
          (Int.le_ediv_iff_mul_le hdpos).mpr
            (show (-30) * (2 * ((v - mn : ℕ) : ℤ)) ≤ 60 * c + ((v - mn : ℕ) : ℤ) by omega)
        exact h3
      · have h3 : (60 * c + ((v - mn : ℕ) : ℤ)) / (2 * ((v - mn : ℕ) : ℤ)) < 151 :=
          (Int.ediv_lt_iff_lt_mul hdpos).mpr
            (show 60 * c + ((v - mn : ℕ) : ℤ) < 151 * (2 * ((v - mn : ℕ) : ℤ)) by omega)
        omega
    by_cases hvr : v = p.r
    · rw [if_pos hvr]
      have hb := hbound ((p.g : ℤ) - p.b) (by omega) (by omega)
      split <;> omega
    · rw [if_neg hvr]
      by_cases hvg : v = p.g
      · rw [if_pos hvg]
        have hb := hbound ((p.b : ℤ) - p.r + 2 * ((v - mn : ℕ) : ℤ)) (by omega) (by omega)
        split <;> omega
      · rw [if_neg hvg]
        have hvb : v = p.b := by omega
        have hb := hbound ((p.r : ℤ) - p.g + 4 * ((v - mn : ℕ) : ℤ)) (by omega) (by omega)
        split <;> omega

/-- The 8-bit OpenCV saturation is at most 255. -/
theorem bgr2hsv_s_le (p : PixB) : (bgr2hsv p).s ≤ 255 := by
  unfold bgr2hsv
  dsimp only
  set v := max p.r (max p.g p.b) with hv
  set mn := min p.r (min p.g p.b) with hmn
  by_cases hv0 : v = 0
  · rw [if_pos hv0]
    omega
  · rw [if_neg hv0]
    have hmle : mn ≤ v := by omega
    have hlt : (510 * (v - mn) + v) / (2 * v) < 256 := by
      rw [Nat.div_lt_iff_lt_mul (by omega)]
      omega
    omega

/-- The value channel of a byte pixel is a byte. -/
theorem bgr2hsv_v_le {p : PixB} (hb : p.b ≤ 255) (hg : p.g ≤ 255) (hr : p.r ≤ 255) :
    (bgr2hsv p).v ≤ 255 := by
  unfold bgr2hsv
  dsimp only
  omega

/-- A pixel equal to the key color, whose saturation and value clear the
low-bound gate, is masked at tolerance 0.  (At larger tolerances this can
fail: when `tolerance > keyHue` the `uint8` subtraction wraps the lower bound
above every hue, emptying the mask.) -/
theorem maskVal_self_tol_zero {kc : PixB}
    (hv : (bgr2hsv kc).v ≤ 255)
    (hs : 50 ≤ (bgr2hsv kc).s) (hvv : 50 ≤ (bgr2hsv kc).v) :
    maskVal (bgr2hsv kc) 0 (bgr2hsv kc) = 255 := by
  unfold maskVal
  rw [if_pos]
  refine ⟨?_, ?_, hs, bgr2hsv_s_le kc, hvv, hv⟩
  · unfold lowerHue u8sub
    have hh := bgr2hsv_h_le kc
    omega
  · unfold upperHue u8add
    have hh := bgr2hsv_h_le kc
    omega

/-! ## Claim C2 -/

/-- C2 (amended): if every pixel of the foreground equals the key color,
tolerance = 0, softness = 0 and spillSuppression = 0, and the key color's HSV
saturation and value clear the fixed low-bound gate (≥ 50), then the
composite returns the background exactly; and the concrete scenario — F a
2×2 raster of pure key-color pixels (0,255,0), B a 2×2 raster of (255,0,0)
pixels, tolerance 10, softness 0, spill 0 — returns B exactly.  (Without the
saturation/value condition the claim fails; see the counterexample.) -/
theorem c2_uniform_key_full_replacement :
    (∀ (F B : RasterB) (kc : PixB) (hh ww : ℕ),
      ValidB F hh ww → ValidB B hh ww →
      (∀ i j, i < hh → j < ww → px F i j = kc) →
      50 ≤ (bgr2hsv kc).s → 50 ≤ (bgr2hsv kc).v →
      (perform_chroma_key F (some (.img B)) kc 0 0 0).1 = B) ∧
    (perform_chroma_key
        [[⟨0,255,0⟩, ⟨0,255,0⟩], [⟨0,255,0⟩, ⟨0,255,0⟩]]
        (some (.img [[⟨255,0,0⟩, ⟨255,0,0⟩], [⟨255,0,0⟩, ⟨255,0,0⟩]]))
        ⟨0,255,0⟩ 10 0 0).1
      = [[⟨255,0,0⟩, ⟨255,0,0⟩], [⟨255,0,0⟩, ⟨255,0,0⟩]] := by
  constructor
  · intro F B kc hh ww hF hB huni hs hvv
    apply perform_img_uniform_key_eq kc 0 hF hB
    intro i j hi hj
    rw [huni i j hi hj]
    obtain ⟨hb, hg, hr⟩ := px_byte hF i j
    rw [huni i j hi hj] at hb hg hr
    exact maskVal_self_tol_zero (bgr2hsv_v_le hb hg hr) hs hvv
  · apply perform_img_uniform_key_eq ⟨0,255,0⟩ 10
      (show ValidB [[⟨0,255,0⟩, ⟨0,255,0⟩], [⟨0,255,0⟩, ⟨0,255,0⟩]] 2 2 by decide)
      (show ValidB [[⟨255,0,0⟩, ⟨255,0,0⟩], [⟨255,0,0⟩, ⟨255,0,0⟩]] 2 2 by decide)
    intro i j hi hj
    interval_cases i <;> interval_cases j <;> decide

/-- C2 counterexample: the claim as stated ("for every keyColor") is false.
With keyColor black (0,0,0), a uniform black foreground and a white
background, tolerance 0, softness 0, spill 0, the output is the foreground,
not the background: black fails the saturation/value gate of the mask. -/
theorem c2_dark_key_not_replaced :
    (perform_chroma_key [[⟨0,0,0⟩]] (some (.img [[⟨255,255,255⟩]])) ⟨0,0,0⟩ 0 0 0).1
      = [[⟨0,0,0⟩]] ∧
    ([[⟨0,0,0⟩]] : RasterB) ≠ [[⟨255,255,255⟩]] := by
  constructor
  · apply perform_img_no_key ⟨0,0,0⟩ 0
      (show ValidB [[⟨0,0,0⟩]] 1 1 by decide)
    intro i j hi hj
    interval_cases i <;> interval_cases j <;> decide
  · decide

/-- C2 witness: the general conjunct applied to a concrete 1×1 green frame
over a 1×1 gray background. -/
theorem c2_uniform_key_witness :
    (perform_chroma_key [[⟨0,255,0⟩]] (some (.img [[⟨100,100,100⟩]])) ⟨0,255,0⟩ 0 0 0).1
      = [[⟨100,100,100⟩]] := by
  apply c2_uniform_key_full_replacement.1 _ _ _ 1 1
    (show ValidB [[⟨0,255,0⟩]] 1 1 by decide)
    (show ValidB [[⟨100,100,100⟩]] 1 1 by decide)
    ?_ (by decide) (by decide)
  intro i j hi hj
  interval_cases i <;> interval_cases j <;> decide

/-! ## Claim C3 -/

/-- C3 (code bug): wherever `keyHue - tolerance` does not wrap in `uint8`
(and `keyHue + tolerance` stays below 256), the embedded mask coincides with
the claim's clamped-interval predicate — but at the failing input
(keyColor green, hue 60; tolerance 80, within the GUI's 0..100 range;
foreground pixel pure red, HSV (0,255,255)) the claim's predicate marks the
pixel as key while the code's lower bound wraps to 236, the mask comes out
empty, and the composite returns the foreground unchanged.  The `max(0, ...)`
in the source is dead code, showing the clamping was the intent. -/
theorem c3_tolerance_wraparound_bug :
    (∀ (key q : HSV) (tol : ℕ), tol ≤ key.h → key.h + tol ≤ 255 →
      q.h ≤ 179 → q.s ≤ 255 → q.v ≤ 255 →
      (maskVal key tol q = 255 ↔ specMaskPred key tol q)) ∧
    specMaskPred (bgr2hsv ⟨0,255,0⟩) 80 (bgr2hsv ⟨0,0,255⟩) ∧
    maskVal (bgr2hsv ⟨0,255,0⟩) 80 (bgr2hsv ⟨0,0,255⟩) = 0 ∧
    lowerHue (bgr2hsv ⟨0,255,0⟩).h 80 = 236 ∧
    (perform_chroma_key [[⟨0,0,255⟩]] (some (.img [[⟨255,0,0⟩]])) ⟨0,255,0⟩ 80 0 0).1
      = [[⟨0,0,255⟩]] := by
  refine ⟨?_, by decide, by decide, by decide, ?_⟩
  · intro key q tol h1 h2 h3 h4 h5
    unfold maskVal specMaskPred lowerHue upperHue u8sub u8add
    split
    · rename_i hcond
      constructor
      · intro _
        omega
      · intro _
        rfl
    · rename_i hcond
      constructor
      · intro habs
        exact absurd habs (by decide)
      · intro hp
        exact absurd (by omega) hcond
  · apply perform_img_no_key ⟨0,255,0⟩ 80
      (show ValidB [[⟨0,0,255⟩]] 1 1 by decide)
    intro i j hi hj
    interval_cases i <;> interval_cases j <;> decide

/-- C3 witness: the no-wrap equivalence applied at the green key
(HSV (60,255,255)), tolerance 10, and a red pixel (HSV (0,255,255)). -/
theorem c3_no_wrap_witness :
    maskVal ⟨60,255,255⟩ 10 ⟨0,255,255⟩ = 255 ↔ specMaskPred ⟨60,255,255⟩ 10 ⟨0,255,255⟩ :=
  c3_tolerance_wraparound_bug.1 ⟨60,255,255⟩ ⟨0,255,255⟩ 10
    (by decide) (by decide) (by decide) (by decide) (by decide)

/-! ## Claim C1 -/

theorem rect_for_resize {F B : RasterB} {hh ww : ℕ} (hF : Rect F hh ww)
    (hB : Rect B hh ww) : Rect B F.length (widthOf F) := by
  rcases Nat.eq_zero_or_pos hh with h0 | hpos
  · subst h0
    have hFe : F = [] := List.length_eq_zero.mp hF.1
    have hBe : B = [] := List.length_eq_zero.mp hB.1
    subst hFe; subst hBe
    exact ⟨rfl, by intro row hrow; cases hrow⟩
  · rw [hF.1, rect_width hF hpos]
    exact hB

theorem valid_retype {a F : RasterB} {hh ww : ℕ} (hF : Rect F hh ww)
    (h : ValidB a F.length (F.getD 0 []).length) : ValidB a hh ww := by
  rcases Nat.eq_zero_or_pos hh with h0 | hpos
  · subst h0
    have hFe : F = [] := List.length_eq_zero.mp hF.1
    subst hFe
    have ha : a = [] := List.length_eq_zero.mp h.1.1
    subst ha
    exact ⟨⟨rfl, by intro row hrow; cases hrow⟩, by intro row hrow; cases hrow⟩
  · have e1 : F.length = hh := hF.1
    have e2 : (F.getD 0 []).length = ww := rect_row_len hF hpos
    rw [e1, e2] at h
    exact h

theorem blendPix_one {pb : PixB} (pf : PixB) (hb : pb.b ≤ 255) (hg : pb.g ≤ 255)
    (hr : pb.r ≤ 255) : blendPix 1 pb pf = pb := by
  unfold blendPix
  have e1 : ∀ x y : ℚ, 1 * x + (1 - 1) * y = x := fun x y => by ring
  rw [e1, e1, e1, toByte_natCast hb, toByte_natCast hg, toByte_natCast hr]

/-- C1 (amended): for equal-sized byte rasters, `perform_chroma_key` with an
image background returns a raster of the same width and height with byte
channels, and — when `color_spill = 0` — every pixel and channel equals
`alpha × background + (1 − alpha) × foreground`, computed in rational
(float) arithmetic, clamped to 0..255 and truncated to `uint8`.  (When
`color_spill > 0` the green channel is further reduced before the clamp;
see the counterexample, which is why the per-channel formula is restricted
to `color_spill = 0`.) -/
theorem c1_composite_size_and_blend :
    ∀ (F B : RasterB) (kc : PixB) (tol soft spill : ℕ) (hh ww : ℕ),
      ValidB F hh ww → ValidB B hh ww →
      ValidB ((perform_chroma_key F (some (.img B)) kc tol soft spill).1) hh ww ∧
      (spill = 0 → ∀ i j, i < hh → j < ww →
        px ((perform_chroma_key F (some (.img B)) kc tol soft spill).1) i j =
          blendPix (aij (alphaMapOf F kc tol soft) i j) (px B i j) (px F i j)) := by
  intro F B kc tol soft spill hh ww hF hB
  have hres : cvResize B (widthOf F) F.length = B :=
    cvResize_same (rect_for_resize hF.1 hB.1)
  have hperf : (perform_chroma_key F (some (.img B)) kc tol soft spill).1 =
      compositeCore F B kc tol soft spill := by
    have h0 : (perform_chroma_key F (some (.img B)) kc tol soft spill).1 =
        compositeCore F (cvResize B (widthOf F) F.length) kc tol soft spill := rfl
    rw [h0, hres]
  rw [hperf]
  constructor
  · exact valid_retype hF.1 (compositeCore_valid F B kc tol soft spill)
  · intro hspill i j hi hj
    subst hspill
    have hi' : i < F.length := by rw [hF.1.1]; exact hi
    have hj' : j < (F.getD 0 []).length := by
      rw [rect_row_len hF.1 (by omega)]; exact hj
    rw [px_compositeCore F B kc tol soft 0 hi' hj']
    rw [if_neg (by omega)]
    rfl

/-- C1 counterexample: the claim as stated quantifies over all parameter
values, but with `color_spill = 50` the green channel of the output no longer
equals the blend formula: on a 1×1 pure-green frame over background
(100,200,50), the output pixel is (100,150,50) while the formula gives
(100,200,50). -/
theorem c1_spill_breaks_blend :
    px ((perform_chroma_key [[⟨0,255,0⟩]] (some (.img [[⟨100,200,50⟩]]))
        ⟨0,255,0⟩ 10 0 50).1) 0 0
      ≠ blendPix (aij (alphaMapOf [[⟨0,255,0⟩]] ⟨0,255,0⟩ 10 0) 0 0)
          (px [[⟨100,200,50⟩]] 0 0) (px [[⟨0,255,0⟩]] 0 0) := by
  have hmask : ∀ i j, i < 1 → j < 1 →
      maskVal (bgr2hsv (⟨0,255,0⟩ : PixB)) 10
        (bgr2hsv (px [[⟨0,255,0⟩]] i j)) = 255 := by
    intro i j hi hj
    interval_cases i <;> interval_cases j <;> decide
  have h1 := (perform_img_uniform_key ⟨0,255,0⟩ 10 50
    (show ValidB [[⟨0,255,0⟩]] 1 1 by decide)
    (show ValidB [[⟨100,200,50⟩]] 1 1 by decide) hmask).2 0 0 (by omega) (by omega)
  rw [h1]
  have ha : aij (alphaMapOf [[⟨0,255,0⟩]] ⟨0,255,0⟩ 10 0) 0 0 = 1 :=
    alphaMapOf_one (show Rect [[⟨0,255,0⟩]] 1 1 by decide) hmask (by omega) (by omega)
  rw [ha]
  rw [blendPix_one (px [[⟨0,255,0⟩]] 0 0) (by decide) (by decide) (by decide)]
  decide

/-- C1 witness: the size-and-validity conjunct applied at a concrete 1×1
input with softness 1 and spill 3. -/
theorem c1_composite_witness :
    ValidB ((perform_chroma_key [[⟨0,255,0⟩]] (some (.img [[⟨7,8,9⟩]]))
        ⟨0,255,0⟩ 25 1 3).1) 1 1 :=
  (c1_composite_size_and_blend [[⟨0,255,0⟩]] [[⟨7,8,9⟩]] ⟨0,255,0⟩ 25 1 3 1 1
    (by decide) (by decide)).1

/-! ## Claim C4 -/

theorem rndHalfEven_nonneg {q : ℚ} (h : 0 ≤ q) : 0 ≤ rndHalfEven q := by
  unfold rndHalfEven
  have h0 : (0:ℤ) ≤ ⌊q⌋ := Int.floor_nonneg.mpr h
  split_ifs <;> omega

/-- C4 (amended): `cv2.convertScaleAbs` maps each channel of each pixel to
`clamp(round(|originalChannel × contrastMultiplier + brightnessOffset|), 0, 255)`
— the absolute value of the affine remap, not the plain clamped affine remap
the claim states (see the counterexample) — applied uniformly to every pixel;
and `apply_chroma_key` always adjusts the foreground with the foreground
parameters (shown here on the no-background path, where the adjusted
foreground is returned unchanged). -/
theorem c4_adjust_formula :
    (∀ (al be : ℚ) (a : RasterB) (i j : ℕ),
      i < a.length → j < (a.getD i []).length →
      px (cvtScaleAbsRaster al be a) i j =
        ⟨(min 255 (max 0 (rndHalfEven |al * ((px a i j).b : ℚ) + be|))).toNat,
         (min 255 (max 0 (rndHalfEven |al * ((px a i j).g : ℚ) + be|))).toNat,
         (min 255 (max 0 (rndHalfEven |al * ((px a i j).r : ℚ) + be|))).toNat⟩) ∧
    (∀ (s : AppState) (frame : RasterB),
      s.bg_image = none → ¬(s.bg_is_video = true ∧ s.bg_frames ≠ []) →
      applyChromaKey s frame =
        (cvtScaleAbsRaster s.fg_contrast s.fg_brightness frame, s)) := by
  constructor
  · intro al be a i j hi hj
    unfold cvtScaleAbsRaster px
    rw [getD_map_lt (fun row => row.map (cvtScaleAbsPix al be)) _ i
      (by simpa using hi) [] []]
    rw [getD_map_lt (cvtScaleAbsPix al be) _ j (by simpa using hj) ⟨0,0,0⟩ ⟨0,0,0⟩]
    unfold cvtScaleAbsPix cvtScaleAbsChan
    rw [max_eq_right (rndHalfEven_nonneg (abs_nonneg _)),
      max_eq_right (rndHalfEven_nonneg (abs_nonneg _)),
      max_eq_right (rndHalfEven_nonneg (abs_nonneg _))]
  · intro s frame himg hcond
    unfold applyChromaKey
    rw [if_neg hcond, himg]

/-- C4 counterexample: the spec formula clamps 0 × 1 + (−50) to 0, but
`convertScaleAbs` takes the absolute value first: on a black pixel with
contrast 1 and brightness −50 the code produces channel value 50. -/
theorem c4_abs_counterexample :
    px (cvtScaleAbsRaster 1 (-50) [[⟨0,0,0⟩]]) 0 0 = ⟨50,50,50⟩ ∧
    specAdjustPix 1 (-50) (px [[(⟨0,0,0⟩ : PixB)]] 0 0) = ⟨0,0,0⟩ ∧
    ((⟨50,50,50⟩ : PixB) ≠ ⟨0,0,0⟩) := by
  refine ⟨?_, ?_, by decide⟩
  · show cvtScaleAbsPix 1 (-50) ⟨0,0,0⟩ = ⟨50,50,50⟩
    unfold cvtScaleAbsPix cvtScaleAbsChan rndHalfEven
    norm_num [Int.fract]
    decide
  · show specAdjustPix 1 (-50) ⟨0,0,0⟩ = ⟨0,0,0⟩
    unfold specAdjustPix specAdjustChan rndHalfEven
    norm_num [Int.fract]

/-- C4 witness: the per-channel formula applied at a concrete pixel with
contrast 3/2 and brightness 5. -/
theorem c4_adjust_witness :
    px (cvtScaleAbsRaster (3/2) 5 [[⟨10,20,30⟩]]) 0 0 =
      ⟨(min 255 (max 0 (rndHalfEven
          |(3/2 : ℚ) * ((px [[(⟨10,20,30⟩ : PixB)]] 0 0).b : ℚ) + 5|))).toNat,
       (min 255 (max 0 (rndHalfEven
          |(3/2 : ℚ) * ((px [[(⟨10,20,30⟩ : PixB)]] 0 0).g : ℚ) + 5|))).toNat,
       (min 255 (max 0 (rndHalfEven
          |(3/2 : ℚ) * ((px [[(⟨10,20,30⟩ : PixB)]] 0 0).r : ℚ) + 5|))).toNat⟩ :=
  c4_adjust_formula.1 (3/2) 5 [[⟨10,20,30⟩]] 0 0 (by decide) (by decide)

/-! ## Claim C5 -/

theorem toByte_int (g : ℚ) (h0 : 0 ≤ g) (h1 : g ≤ 255) :
    (toByte g : ℤ) = ⌊g⌋ := by
  unfold toByte clipQ
  rw [max_eq_right h0, min_eq_right h1]
  exact Int.toNat_of_nonneg (Int.floor_nonneg.mpr h0)

theorem blend_bounds {a x y : ℚ} (ha0 : 0 ≤ a) (ha1 : a ≤ 1)
    (hx0 : 0 ≤ x) (hx1 : x ≤ 255) (hy0 : 0 ≤ y) (hy1 : y ≤ 255) :
    0 ≤ a * x + (1 - a) * y ∧ a * x + (1 - a) * y ≤ 255 := by
  constructor
  · have h1 : 0 ≤ a * x := mul_nonneg ha0 hx0
    have h2 : 0 ≤ (1 - a) * y := mul_nonneg (by linarith) hy0
    linarith
  · have h1 : a * x ≤ a * 255 := mul_le_mul_of_nonneg_left hx1 ha0
    have h2 : (1 - a) * y ≤ (1 - a) * 255 := mul_le_mul_of_nonneg_left hy1 (by linarith)
    nlinarith

/-- The green-shift arithmetic fact: subtracting the spill before the clamp
and byte conversion equals clamping the already-converted byte minus the
spill. -/
theorem spill_chan_eq (g : ℚ) (s : ℕ) (h0 : 0 ≤ g) (h1 : g ≤ 255) (hs : 0 < s) :
    ((toByte (clipQ (g - s) 0 255)) : ℤ) = max 0 (min 255 ((toByte g : ℤ) - s)) := by
  have hm0 : (0 : ℤ) ≤ ⌊g⌋ := Int.floor_nonneg.mpr h0
  have hm1 : ⌊g⌋ ≤ 255 := by
    have := Int.floor_le_floor h1
    simpa using this
  rw [toByte_int g h0 h1]
  rcases le_or_lt (s : ℚ) g with h | h
  · have hc0 : (0 : ℚ) ≤ g - s := by linarith
    have hc1 : g - s ≤ 255 := by
      have : (0 : ℚ) ≤ (s : ℚ) := by positivity
      linarith
    have hclip : clipQ (g - s) 0 255 = g - s := by
      unfold clipQ
      rw [max_eq_right hc0, min_eq_right hc1]
    rw [hclip, toByte_int _ hc0 hc1]
    have hfs : ⌊g - (s : ℚ)⌋ = ⌊g⌋ - s := by
      have : ((s : ℕ) : ℚ) = ((s : ℤ) : ℚ) := by push_cast; ring
      rw [this, Int.floor_sub_int]
    have hge : (s : ℤ) ≤ ⌊g⌋ := by
      apply Int.le_floor.mpr
      push_cast
      exact h
    rw [hfs]
    omega
  · have hc : g - s < 0 := by linarith
    have hclip : clipQ (g - s) 0 255 = 0 := by
      unfold clipQ
      rw [max_eq_left (le_of_lt hc), min_eq_right (by norm_num : (0:ℚ) ≤ 255)]
    rw [hclip]
    have ht0 : toByte 0 = 0 := by
      unfold toByte clipQ
      norm_num
    rw [ht0]
    have hlt : ⌊g⌋ < (s : ℤ) := by
      apply Int.floor_lt.mpr
      push_cast
      exact h
    omega

theorem px_out_of_range {a : RasterB} {hh ww : ℕ} (h : Rect a hh ww) {i j : ℕ}
    (hout : hh ≤ i ∨ ww ≤ j) : px a i j = ⟨0,0,0⟩ := by
  unfold px
  by_cases hi : i < hh
  · have hj : ww ≤ j := by
      rcases hout with h' | h'
      · omega
      · exact h'
    rw [List.getD_eq_default _ _ (by rw [rect_row_len h hi]; omega)]
  · have hd : a.getD i [] = [] := List.getD_eq_default _ _ (by rw [h.1]; omega)
    rw [hd]
    rfl

/-- C5: for every equal-sized byte input pair and every `color_spill = s > 0`,
the green channel of every pixel of the composite equals the green channel of
the `color_spill = 0` composite reduced by exactly `s` and clamped into
0..255, uniformly over the whole frame (no masking of the reduction), while
the blue and red channels are unchanged. -/
theorem c5_spill_green_shift :
    ∀ (F B : RasterB) (kc : PixB) (tol soft s : ℕ) (hh ww : ℕ),
      ValidB F hh ww → ValidB B hh ww → 0 < s →
      ∀ i j,
        ((px ((perform_chroma_key F (some (.img B)) kc tol soft s).1) i j).g : ℤ) =
          max 0 (min 255
            (((px ((perform_chroma_key F (some (.img B)) kc tol soft 0).1) i j).g : ℤ) - s)) ∧
        (px ((perform_chroma_key F (some (.img B)) kc tol soft s).1) i j).b =
          (px ((perform_chroma_key F (some (.img B)) kc tol soft 0).1) i j).b ∧
        (px ((perform_chroma_key F (some (.img B)) kc tol soft s).1) i j).r =
          (px ((perform_chroma_key F (some (.img B)) kc tol soft 0).1) i j).r := by
  intro F B kc tol soft s hh ww hF hB hs i j
  have hres : cvResize B (widthOf F) F.length = B :=
    cvResize_same (rect_for_resize hF.1 hB.1)
  have hperf : ∀ sp : ℕ, (perform_chroma_key F (some (.img B)) kc tol soft sp).1 =
      compositeCore F B kc tol soft sp := by
    intro sp
    have h0 : (perform_chroma_key F (some (.img B)) kc tol soft sp).1 =
        compositeCore F (cvResize B (widthOf F) F.length) kc tol soft sp := rfl
    rw [h0, hres]
  rw [hperf s, hperf 0]
  by_cases hin : i < hh ∧ j < ww
  · obtain ⟨hi, hj⟩ := hin
    have hi' : i < F.length := by rw [hF.1.1]; exact hi
    have hj' : j < (F.getD 0 []).length := by
      rw [rect_row_len hF.1 (by omega)]; exact hj
    rw [px_compositeCore F B kc tol soft s hi' hj',
      px_compositeCore F B kc tol soft 0 hi' hj']
    obtain ⟨ha0, ha1⟩ := alphaMapOf_mem_unit F kc tol soft hi' hj'
    obtain ⟨_, hBg, _⟩ := px_byte hB i j
    obtain ⟨_, hFg, _⟩ := px_byte hF i j
    obtain ⟨hg0, hg1⟩ := blend_bounds ha0 ha1
      (by positivity : (0:ℚ) ≤ ((px B i j).g : ℚ)) (by exact_mod_cast hBg)
      (by positivity : (0:ℚ) ≤ ((px F i j).g : ℚ)) (by exact_mod_cast hFg)
    refine ⟨?_, rfl, rfl⟩
    rw [if_pos hs, if_neg (by omega)]
    exact spill_chan_eq _ s hg0 hg1 hs
  · push_neg at hin
    have hout : hh ≤ i ∨ ww ≤ j := by
      by_cases hi : i < hh
      · right; exact hin hi
      · left; omega
    have hrs : Rect (compositeCore F B kc tol soft s) hh ww :=
      (valid_retype hF.1 (compositeCore_valid F B kc tol soft s)).1
    have hr0 : Rect (compositeCore F B kc tol soft 0) hh ww :=
      (valid_retype hF.1 (compositeCore_valid F B kc tol soft 0)).1
    rw [px_out_of_range hrs hout, px_out_of_range hr0 hout]
    refine ⟨?_, rfl, rfl⟩
    show (((0:ℕ)) : ℤ) = max 0 (min 255 ((((0:ℕ)) : ℤ) - s))
    omega

/-- C5 witness: the green-shift relation at a concrete 1×1 green frame over
background (0, 200, 0) with spill 50. -/
theorem c5_spill_witness :
    ((px ((perform_chroma_key [[⟨0,255,0⟩]] (some (.img [[⟨0,200,0⟩]]))
        ⟨0,255,0⟩ 10 0 50).1) 0 0).g : ℤ) =
      max 0 (min 255
        (((px ((perform_chroma_key [[⟨0,255,0⟩]] (some (.img [[⟨0,200,0⟩]]))
            ⟨0,255,0⟩ 10 0 0).1) 0 0).g : ℤ) - 50)) :=
  (c5_spill_green_shift [[⟨0,255,0⟩]] [[⟨0,200,0⟩]] ⟨0,255,0⟩ 10 0 50 1 1
    (by decide) (by decide) (by omega) 0 0).1

/-! ## Claim C6 -/

theorem stepIdx_false (c N : ℤ) : stepIdx false c N = if N ≤ c + 1 then 0 else c + 1 := rfl

theorem stepIdx_true (c N : ℤ) : stepIdx true c N = if c - 1 < 0 then N - 1 else c - 1 := rfl

theorem neg_one_emod {N : ℤ} (hN : 1 ≤ N) : (-1 : ℤ) % N = N - 1 := by
  have h1 : (N - 1 : ℤ) = -1 + N * 1 := by ring
  have h2 : ((-1 : ℤ) + N * 1) % N = (-1) % N := @Int.add_mul_emod_self_left (-1) N 1
  have h3 : (N - 1) % N = N - 1 := Int.emod_eq_of_lt (by omega) (by omega)
  rw [h1] at h3
  rw [← h2]
  omega

/-- C6: `apply_chroma_key` advances the background cursor by +1 (forward) or
−1 (reverse) before reading, wrapping modulo the sequence length in both
directions; started at cursor 0, forward stepping visits cursors
`k mod N` = 1, 2, ..., N−1, 0, 1, ... and reverse stepping visits
`(−k) mod N` = N−1, N−2, ..., 0, N−1, ...; a step's direction is read only
at that step (so switching direction mid-stream changes only the next step);
and the GUI stepper mutates exactly `bg_index`, reading the frame at the new
cursor. -/
theorem c6_background_stepping :
    (∀ N : ℤ, 1 ≤ N → ∀ c : ℤ, 0 ≤ c → c < N →
      stepIdx false c N = (c + 1) % N ∧ stepIdx true c N = (c - 1) % N) ∧
    (∀ N : ℤ, 1 ≤ N → ∀ k : ℕ, runIdx false N k = (k : ℤ) % N) ∧
    (∀ N : ℤ, 1 ≤ N → ∀ k : ℕ, runIdx true N k = (-(k : ℤ)) % N) ∧
    (∀ (N : ℤ) (ds : List Bool) (d : Bool),
      foldSteps N (ds ++ [d]) = stepIdx d (foldSteps N ds) N) ∧
    (∀ (st : AppState) (frame : RasterB),
      st.bg_is_video = true → st.bg_frames ≠ [] →
      (applyChromaKey st frame).2 =
        { st with bg_index := stepIdx st.bg_video_is_reversed st.bg_index st.bg_total_frames } ∧
      (nextBgFrame st).1 =
        st.bg_frames.getD
          (stepIdx st.bg_video_is_reversed st.bg_index st.bg_total_frames).toNat []) := by
  refine ⟨?_, ?_, ?_, ?_, ?_⟩
  · intro N hN c hc0 hcN
    constructor
    · rw [stepIdx_false]
      by_cases h : N ≤ c + 1
      · rw [if_pos h]
        have he : c + 1 = N := by omega
        rw [he, Int.emod_self]
      · rw [if_neg h, Int.emod_eq_of_lt (by omega) (by omega)]
    · rw [stepIdx_true]
      by_cases h : c - 1 < 0
      · rw [if_pos h]
        have hc : c = 0 := by omega
        subst hc
        rw [show (0 - 1 : ℤ) = -1 by ring, neg_one_emod hN]
      · rw [if_neg h, Int.emod_eq_of_lt (by omega) (by omega)]
  · intro N hN k
    induction k with
    | zero =>
        show (0 : ℤ) = ((0 : ℕ) : ℤ) % N
        simp
    | succ k ih =>
        have hiter : runIdx false N (k + 1) = stepIdx false (runIdx false N k) N := by
          unfold runIdx
          rw [Function.iterate_succ_apply']
        rw [hiter, ih]
        have hb0 : 0 ≤ (k : ℤ) % N := Int.emod_nonneg _ (by omega)
        have hb1 : (k : ℤ) % N < N := Int.emod_lt_of_pos _ (by omega)
        have hkk : (k : ℤ) + 1 = ((k : ℤ) % N + 1) + N * ((k : ℤ) / N) := by
          have h3 := Int.ediv_add_emod (k : ℤ) N
          linarith
        have hcast : (((k + 1 : ℕ)) : ℤ) = (k : ℤ) + 1 := by push_cast; ring
        have hstep : ((k : ℤ) + 1) % N = ((k : ℤ) % N + 1) % N := by
          rw [hkk, @Int.add_mul_emod_self_left ((k : ℤ) % N + 1) N ((k : ℤ) / N)]
        rw [hcast, hstep, stepIdx_false]
        by_cases h : N ≤ (k : ℤ) % N + 1
        · rw [if_pos h]
          have he : (k : ℤ) % N + 1 = N := by omega
          rw [he, Int.emod_self]
        · rw [if_neg h,
            Int.emod_eq_of_lt (show (0:ℤ) ≤ (k : ℤ) % N + 1 by omega)
              (show (k : ℤ) % N + 1 < N by omega)]
  · intro N hN k
    induction k with
    | zero =>
        show (0 : ℤ) = (-((0 : ℕ) : ℤ)) % N
        simp
    | succ k ih =>
        have hiter : runIdx true N (k + 1) = stepIdx true (runIdx true N k) N := by
          unfold runIdx
          rw [Function.iterate_succ_apply']
        rw [hiter, ih]
        have hb0 : 0 ≤ (-(k : ℤ)) % N := Int.emod_nonneg _ (by omega)
        have hb1 : (-(k : ℤ)) % N < N := Int.emod_lt_of_pos _ (by omega)
        have hkk : -(k : ℤ) - 1 = ((-(k : ℤ)) % N - 1) + N * ((-(k : ℤ)) / N) := by
          have h3 := Int.ediv_add_emod (-(k : ℤ)) N
          linarith
        have hcast : (-((k + 1 : ℕ) : ℤ)) = -(k : ℤ) - 1 := by push_cast; ring
        have hstep : (-(k : ℤ) - 1) % N = ((-(k : ℤ)) % N - 1) % N := by
          rw [hkk, @Int.add_mul_emod_self_left ((-(k : ℤ)) % N - 1) N ((-(k : ℤ)) / N)]
        rw [hcast, hstep, stepIdx_true]
        by_cases h : (-(k : ℤ)) % N - 1 < 0
        · rw [if_pos h]
          have he : (-(k : ℤ)) % N - 1 = -1 := by omega
          rw [he, neg_one_emod hN]
        · rw [if_neg h,
            Int.emod_eq_of_lt (show (0:ℤ) ≤ (-(k : ℤ)) % N - 1 by omega)
              (show (-(k : ℤ)) % N - 1 < N by omega)]
  · intro N ds d
    unfold foldSteps
    rw [List.foldl_append]
    rfl
  · intro st frame hv hne
    constructor
    · unfold applyChromaKey
      rw [if_pos ⟨hv, hne⟩]
      rfl
    · rfl

/-- C6 witness: with a 3-frame sequence, four forward steps from cursor 0
land on cursor 1, and one reverse step from cursor 0 lands on cursor 2. -/
theorem c6_stepping_witness : runIdx false 3 4 = 1 ∧ runIdx true 3 1 = 2 := by
  constructor
  · have h := c6_background_stepping.2.1 3 (by norm_num) 4
    rw [h]
    decide
  · have h := c6_background_stepping.2.2.1 3 (by norm_num) 1
    rw [h]
    decide

/-! ## Claim C7 -/

/-- C7: constructing a frame-sequence background from zero decoded frames
fails at load time with the "no valid frames" error and installs no frame
list; from one or more frames it installs the full list, its length and
cursor 0; and stepping an installed (hence nonempty) sequence always returns
a member frame and preserves the cursor invariant — an empty sequence is
never discovered lazily during stepping. -/
theorem c7_empty_sequence_rejected :
    (∀ s : AppState, loadBackgroundVideoWorker [] s =
      .error "Background video has no valid frames.") ∧
    (∀ (decoded : List RasterB) (s : AppState), decoded ≠ [] →
      loadBackgroundVideoWorker decoded s =
        .ok { s with
              bg_frames := decoded
              bg_total_frames := (decoded.length : ℤ)
              bg_index := 0
              bg_is_video := true }) ∧
    (∀ st : AppState, st.bg_frames ≠ [] →
      st.bg_total_frames = (st.bg_frames.length : ℤ) →
      0 ≤ st.bg_index → st.bg_index < st.bg_total_frames →
      (nextBgFrame st).1 ∈ st.bg_frames ∧
      (nextBgFrame st).2.bg_frames = st.bg_frames ∧
      0 ≤ (nextBgFrame st).2.bg_index ∧
      (nextBgFrame st).2.bg_index < st.bg_total_frames) := by
  refine ⟨fun s => rfl, ?_, ?_⟩
  · intro decoded s hne
    unfold loadBackgroundVideoWorker
    rw [if_neg (by have := List.length_pos.mpr hne; omega)]
  · intro st hne htot h0 h1
    have hlen : 0 < st.bg_frames.length := List.length_pos.mpr hne
    have hidx : 0 ≤ stepIdx st.bg_video_is_reversed st.bg_index st.bg_total_frames ∧
        stepIdx st.bg_video_is_reversed st.bg_index st.bg_total_frames
          < st.bg_total_frames := by
      unfold stepIdx
      split_ifs <;> constructor <;> omega
    have hlt : (stepIdx st.bg_video_is_reversed st.bg_index st.bg_total_frames).toNat
        < st.bg_frames.length := by omega
    refine ⟨?_, rfl, hidx.1, hidx.2⟩
    show st.bg_frames.getD
      (stepIdx st.bg_video_is_reversed st.bg_index st.bg_total_frames).toNat []
      ∈ st.bg_frames
    rw [List.getD_eq_getElem _ _ hlt]
    exact List.getElem_mem hlt

/-- C7 witness: loading a one-frame sequence succeeds and installs it, and a
step on the installed state returns that frame. -/
theorem c7_load_witness :
    loadBackgroundVideoWorker [[[(⟨1,2,3⟩ : PixB)]]] initialApp =
      .ok { initialApp with
            bg_frames := [[[⟨1,2,3⟩]]]
            bg_total_frames := 1
            bg_index := 0
            bg_is_video := true } ∧
    (nextBgFrame { initialApp with
        bg_frames := [[[⟨1,2,3⟩]]]
        bg_total_frames := 1
        bg_index := 0
        bg_is_video := true }).1 ∈ [[[(⟨1,2,3⟩ : PixB)]]] := by
  constructor
  · exact c7_empty_sequence_rejected.2.1 [[[(⟨1,2,3⟩ : PixB)]]] initialApp (by decide)
  · exact (c7_empty_sequence_rejected.2.2 _ (by decide) (by decide)
      (by decide) (by decide)).1

/-! ## Claim C9 -/

theorem aij_congr_idx {A : AlphaMap} {i1 i2 j1 j2 : ℕ} (hi : i1 = i2) (hj : j1 = j2) :
    aij A i1 j1 = aij A i2 j2 := by rw [hi, hj]

theorem reflect101_one (x : ℤ) : reflect101 1 x = 0 := rfl

theorem aij_eval {A : AlphaMap} {i j : ℕ} {a b : ℕ} {q : ℚ} (hi : i = a) (hj : j = b)
    (h : aij A a b = q) : aij A i j = q := by rw [hi, hj, h]

theorem stepMask9_binary : BinaryMap stepMask9 := by
  intro i j
  by_cases hi : i = 0
  · subst hi
    by_cases hj : j < 9
    · show ([0,0,0,0,0,1,1,1,1] : List ℚ).getD j 0 = 0 ∨
        ([0,0,0,0,0,1,1,1,1] : List ℚ).getD j 0 = 1
      interval_cases j
      · exact Or.inl rfl
      · exact Or.inl rfl
      · exact Or.inl rfl
      · exact Or.inl rfl
      · exact Or.inl rfl
      · exact Or.inr rfl
      · exact Or.inr rfl
      · exact Or.inr rfl
      · exact Or.inr rfl
    · left
      show ([0,0,0,0,0,1,1,1,1] : List ℚ).getD j 0 = 0
      rw [List.getD_eq_default _ _ (by
        simp only [List.length_cons, List.length_nil]
        omega)]
  · left
    show (stepMask9.getD i []).getD j 0 = 0
    rw [List.getD_eq_default stepMask9 ([] : List ℚ)
      (show stepMask9.length ≤ i by
        simp only [stepMask9, List.length_cons, List.length_nil]
        omega)]
    rfl

/-- C9 (amended): with softness 0 the alpha map equals the raw binary mask
(every alpha is exactly 0 or 1: a hard matte edge); the blur kernel is
derived deterministically from softness with aperture (kernel width)
`4 × softness + 1` — i.e. radius `2 × softness`, not radius `4 × softness + 1`
as the claim words it (see the counterexample); and feather growth is
monotone: for any positive normalized kernels of the sizes belonging to
softness values `s₁ ≤ s₂` (which covers OpenCV's Gaussian kernels), every
pixel in the transition band at `s₁` is in the band at `s₂` — strictly more
at an unsaturated hard edge, exhibited concretely by pixel (0,4) of a 1×9
step mask, which is outside the band at softness 0 and inside it at
softness 1. -/
theorem c9_softness_feathering :
    (∀ (F : RasterB) (kc : PixB) (tol : ℕ) (i j : ℕ),
      i < F.length → j < (F.getD 0 []).length →
      aij (alphaMapOf F kc tol 0) i j = aij (alpha0Of F kc tol) i j ∧
      (aij (alphaMapOf F kc tol 0) i j = 0 ∨ aij (alphaMapOf F kc tol 0) i j = 1)) ∧
    (∀ s : ℕ, (gaussKernel (blurSize s)).length = 4 * s + 1) ∧
    (∀ s₁ s₂ : ℕ, s₁ ≤ s₂ → ∀ k₁ k₂ : List ℚ,
      k₁.length = blurSize s₁ → k₂.length = blurSize s₂ →
      (∀ x ∈ k₁, 0 < x) → (∀ x ∈ k₂, 0 < x) →
      k₁.sum = 1 → k₂.sum = 1 →
      ∀ A : AlphaMap, BinaryMap A → ∀ i j : ℕ,
        i < A.length → j < (A.getD 0 []).length →
        inBand (gaussBlur2D k₁ A) i j → inBand (gaussBlur2D k₂ A) i j) ∧
    inBand (gaussBlur2D (gaussKernel (blurSize 1)) stepMask9) 0 4 ∧
    ¬ inBand (gaussBlur2D (gaussKernel (blurSize 0)) stepMask9) 0 4 := by
  refine ⟨?_, ?_, ?_, ?_, ?_⟩
  · intro F kc tol i j hi hj
    have h1 := alphaMapOf_soft_zero F kc tol hi hj
    exact ⟨h1, by rw [h1]; exact alpha0Of_binary F kc tol i j⟩
  · intro s
    rw [gaussKernel_length (by rw [blurSize_eq]; omega), blurSize_eq]
  · intro s₁ s₂ hs k₁ k₂ hl1 hl2 hp1 hp2 hs1 hs2 A hbin i j hi hj hband
    apply band_mono hs hl1 hl2 hp1 hp2 ?_ ?_ hbin hi hj hband
    · rw [← list_sum_eq_getD_sum]; exact hs1
    · rw [← list_sum_eq_getD_sum]; exact hs2
  · have hn5 : (1 : ℕ) ≤ blurSize 1 := by rw [blurSize_eq]; omega
    have hpos5 : ∀ x ∈ gaussKernel (blurSize 1), 0 < x := gaussKernel_pos hn5
    have hsum5 := gaussKernel_getD_sum hn5
    constructor
    · rw [gaussBlur_binary_pos_iff hpos5 stepMask9_binary (by decide) (by decide)]
      refine ⟨0, by decide, 3, by decide, ?_⟩
      exact @aij_eval stepMask9 _ _ 0 5 1 (by decide) (by decide) rfl
    · rw [gaussBlur_binary_lt_one_iff hpos5 hsum5 stepMask9_binary (by decide) (by decide)]
      refine ⟨0, by decide, 0, by decide, ?_⟩
      exact @aij_eval stepMask9 _ _ 0 2 0 (by decide) (by decide) rfl
  · intro hband
    have hid : aij (gaussBlur2D (gaussKernel (blurSize 0)) stepMask9) 0 4 =
        aij stepMask9 0 4 := by
      rw [blurSize_zero, gaussKernel_one]
      exact gaussBlur_one_pixel stepMask9 (by decide) (by decide)
    obtain ⟨h1, _⟩ := hband
    rw [hid] at h1
    have hz : aij stepMask9 0 4 = 0 := rfl
    rw [hz] at h1
    exact lt_irrefl 0 h1

/-- C9 counterexample: the blur radius is not `4 × softness + 1`.  At
softness 1 the kernel has 5 taps (radius 2), not the 11 taps a radius-5
kernel would have; and pixel (0,0) of the 1×9 step mask — within distance
5 = 4·1+1 of an opposite-valued pixel, so inside the transition band of any
positive radius-5 blur — has alpha exactly 0 under the embedded blur. -/
theorem c9_radius_counterexample :
    (gaussKernel (blurSize 1)).length = 5 ∧
    (5 : ℕ) ≠ 2 * (4 * 1 + 1) + 1 ∧
    aij stepMask9 0 0 = 0 ∧ aij stepMask9 0 5 = 1 ∧ 5 - 0 ≤ 4 * 1 + 1 ∧
    aij (gaussBlur2D (gaussKernel (blurSize 1)) stepMask9) 0 0 = 0 := by
  refine ⟨by decide, by decide, rfl, rfl, by decide, ?_⟩
  rw [aij_gaussBlur _ _ (by decide) (by decide)]
  apply Finset.sum_eq_zero
  intro u hu
  apply Finset.sum_eq_zero
  intro v hv
  have hv5 : v < 5 := by
    have h := Finset.mem_range.mp hv
    have hL : (gaussKernel (blurSize 1)).length = 5 := by decide
    omega
  have hz : aij stepMask9
      (reflect101 stepMask9.length
        (((0 : ℕ) : ℤ) + u - (((gaussKernel (blurSize 1)).length / 2 : ℕ) : ℤ)))
      (reflect101 (stepMask9.getD 0 []).length
        (((0 : ℕ) : ℤ) + v - (((gaussKernel (blurSize 1)).length / 2 : ℕ) : ℤ))) = 0 := by
    have hrow : reflect101 stepMask9.length
        (((0 : ℕ) : ℤ) + u - (((gaussKernel (blurSize 1)).length / 2 : ℕ) : ℤ)) = 0 :=
      reflect101_one _
    rw [hrow]
    interval_cases v
    · exact @aij_eval stepMask9 _ _ 0 2 0 rfl (by decide) rfl
    · exact @aij_eval stepMask9 _ _ 0 1 0 rfl (by decide) rfl
    · exact @aij_eval stepMask9 _ _ 0 0 0 rfl (by decide) rfl
    · exact @aij_eval stepMask9 _ _ 0 1 0 rfl (by decide) rfl
    · exact @aij_eval stepMask9 _ _ 0 2 0 rfl (by decide) rfl
  rw [hz, mul_zero]

/-- C9 witness: the monotone-band conjunct applied with the concrete ksize-5
kernel at softness 1 and the (positive, normalized) ksize-9 kernel at
softness 2, on the step mask at pixel (0,4). -/
theorem c9_feathering_witness :
    inBand (gaussBlur2D (binomKernel 9) stepMask9) 0 4 := by
  apply c9_softness_feathering.2.2.1 1 2 (by omega)
    (gaussKernel (blurSize 1)) (binomKernel 9)
    (by decide) (by decide)
    (gaussKernel_pos (by rw [blurSize_eq]; omega)) (binomKernel_pos (by omega))
    (gaussKernel_sum (by rw [blurSize_eq]; omega)) (binomKernel_sum (by omega))
    stepMask9 stepMask9_binary 0 4 (by decide) (by decide)
  exact c9_softness_feathering.2.2.2.1

end ChromaKey
